import Mathlib

/-!
# Shallow embedding of `obsidian2cosma.py`

Strings are modelled as `List Char`.  Each Python regular-expression pass of
the source is modelled by an explicit scanner reproducing the `re` engine's
leftmost, lazy-with-backtracking semantics for the concrete pattern that
appears in the source.  Fallible Python code (a `ValueError` escaping) is
modelled with `Option`.  Scanners that are not structurally recursive take an
explicit fuel argument; the top-level wrappers pass the input length as fuel,
which is always sufficient because every step consumes at least one character.
-/

namespace O2C

/-- Whitespace characters as stripped by Python `str.strip` / split by
`str.split()` (ASCII fragment of Python's notion of whitespace). -/
def pySpace (c : Char) : Bool :=
  c == ' ' || c == '\t' || c == '\n' || c == '\r' || c == '\x0b' || c == '\x0c'

/-- Python `str.lstrip`. -/
def pyStripLeft (s : List Char) : List Char := s.dropWhile pySpace

/-- Python `str.rstrip`. -/
def pyStripRight (s : List Char) : List Char := (s.reverse.dropWhile pySpace).reverse

/-- Python `str.strip`. -/
def pyStrip (s : List Char) : List Char := pyStripRight (pyStripLeft s)

/-- Boolean list-prefix test (used to model literal matching inside regexes
and Python `str.startswith` / `str.replace` occurrence search). -/
def isPre : List Char → List Char → Bool
  | [], _ => true
  | _ :: _, [] => false
  | a :: as, b :: bs => a == b && isPre as bs

/-- Index of the first occurrence of `pat` in `s` (Python `str.find`, also the
leftmost-match rule of `re`). -/
def findSub (pat : List Char) : List Char → Option Nat
  | [] => if pat = [] then some 0 else none
  | c :: rest => if isPre pat (c :: rest) then some 0 else (findSub pat rest).map (· + 1)

/-- Whether `pat` occurs somewhere in `s`. -/
def hasSub (pat s : List Char) : Bool := (findSub pat s).isSome

/-- Python dict lookup for the `title2id` dictionary (keys are unique in a
Python dict, so first-match association lookup is faithful). -/
def dictLookup (m : List (List Char × List Char)) (k : List Char) : Option (List Char) :=
  (m.find? (fun p => decide (p.1 = k))).map (·.2)

/-!
## Reference Rewriter (`replace_wiki_links`, source lines 366-420)

First pass: `re.sub(r"(?<!!)\[\[(.+?)\]\](?!\()", replace_wiki_link, content)`.

`scanInner acc l` models the lazy group `(.+?)` followed by the literal `]]`
and the lookahead `(?!\()`, scanning `l` (the text right after `[[`) with the
group's consumed characters accumulated in reverse in `acc`.  When the engine
sees `]]` but the lookahead fails (next char is `(`), or the group is still
empty, it backtracks by letting the lazy group absorb one more character.
`.` does not match a newline (no `re.DOTALL` on this pattern).
-/
def scanInner : List Char → List Char → Option (List Char × List Char)
  | _, [] => none
  | acc, c :: rest =>
    if c = '\n' then none
    else if c = ']' ∧ rest.head? = some ']' then
      if acc = [] then scanInner [']'] rest
      else if rest.tail.head? = some '(' then scanInner (']' :: acc) rest
      else some (acc.reverse, rest.tail)
    else scanInner (c :: acc) rest

/-- The match callback `replace_wiki_link` (source lines 376-406).
`link_text.split("|")` is unpacked into exactly two variables, so a link text
containing two or more pipes raises a `ValueError`: modelled as `none`.
The alias is stripped; the title is looked up unstripped. -/
def replace_wiki_link (zettlr : Bool) (title2id : List (List Char × List Char))
    (link_text : List Char) : Option (List Char) :=
  if link_text.contains '|' then
    if link_text.count '|' ≠ 1 then none
    else
      let link_title := link_text.takeWhile (fun c => !(c == '|'))
      let link_alias := (link_text.dropWhile (fun c => !(c == '|'))).tail
      match dictLookup title2id link_title with
      | none => some ("[[".data ++ link_text ++ "]]".data)
      | some id =>
        if zettlr then some ("[".data ++ pyStrip link_alias ++ "]([[".data ++ id ++ "]])".data)
        else some ("[[".data ++ id ++ "|".data ++ pyStrip link_alias ++ "]]".data)
  else
    match dictLookup title2id link_text with
    | none => some ("[[".data ++ link_text ++ "]]".data)
    | some id =>
      if zettlr then some ("[".data ++ link_text ++ "]([[".data ++ id ++ "]])".data)
      else some ("[[".data ++ id ++ "|".data ++ link_text ++ "]]".data)

/-- The `re.sub` scan for `(?<!!)\[\[(.+?)\]\](?!\()`.  `prev` is the
character preceding the current position in the original string (for the
look-behind `(?<!!)`).  On a match the replacement is emitted and scanning
resumes after the match (whose last character is `]`); if the callback raises
(`none`), the exception propagates.  Fuel decreases by one each step and at
least one character is consumed, so `fuel = length` is always sufficient. -/
def subWikiAuxF (f : List Char → Option (List Char)) :
    Nat → Option Char → List Char → Option (List Char)
  | 0, _, l => some l
  | _ + 1, _, [] => some []
  | fuel + 1, prev, c :: rest =>
    match (if c = '[' ∧ rest.head? = some '[' ∧ prev ≠ some '!' then
             scanInner [] rest.tail
           else none) with
    | some (inner, rest') =>
      (match f inner with
       | none => none
       | some rep => (subWikiAuxF f fuel (some ']') rest').map (fun t => rep ++ t))
    | none => (subWikiAuxF f fuel (some c) rest).map (fun t => c :: t)

/-- First pass of `replace_wiki_links`: the wiki-link substitution. -/
def subWiki (f : List Char → Option (List Char)) (content : List Char) : Option (List Char) :=
  subWikiAuxF f content.length none content

/-- The list of matched group texts of the wiki-link pattern, in scan order
(mirrors `subWikiAuxF` exactly, collecting `inner` instead of rewriting). -/
def wikiScanF : Nat → Option Char → List Char → List (List Char)
  | 0, _, _ => []
  | _ + 1, _, [] => []
  | fuel + 1, prev, c :: rest =>
    match (if c = '[' ∧ rest.head? = some '[' ∧ prev ≠ some '!' then
             scanInner [] rest.tail
           else none) with
    | some (inner, rest') => inner :: wikiScanF fuel (some ']') rest'
    | none => wikiScanF fuel (some c) rest

/-- All wiki-link match texts of a body. -/
def wikiMatches (content : List Char) : List (List Char) :=
  wikiScanF content.length none content

/-!
Second pass: the image wiki-links, pattern `r'!\[\[(.+?\.jpe?g|.+?\.png)\]\]'`
(no `re.IGNORECASE` flag), found with `re.finditer` over the content produced
by the first pass; each full match is then replaced everywhere at once by
`str.replace` (which replaces all occurrences).
-/

/-- First alternative `.+?\.jpe?g` followed by the literal `]]`: lazy scan
trying, after each consumed character, the greedy `e?` option first. -/
def imgTryA : List Char → List Char → Option (List Char × List Char)
  | _, [] => none
  | acc, c :: rest =>
    if c = '\n' then none
    else if isPre ".jpeg]]".data rest then some ((c :: acc).reverse ++ ".jpeg".data, rest.drop 7)
    else if isPre ".jpg]]".data rest then some ((c :: acc).reverse ++ ".jpg".data, rest.drop 6)
    else imgTryA (c :: acc) rest

/-- Second alternative `.+?\.png` followed by the literal `]]`. -/
def imgTryB : List Char → List Char → Option (List Char × List Char)
  | _, [] => none
  | acc, c :: rest =>
    if c = '\n' then none
    else if isPre ".png]]".data rest then some ((c :: acc).reverse ++ ".png".data, rest.drop 6)
    else imgTryB (c :: acc) rest

/-- The group of the image pattern: the engine exhausts the first alternative
(with all its backtracking) before trying the second. -/
def imgTry (l : List Char) : Option (List Char × List Char) :=
  match imgTryA [] l with
  | some r => some r
  | none => imgTryB [] l

/-- `re.finditer` for the image pattern: returns the list of
(full match, group 1) pairs in scan order. -/
def imageScanF : Nat → List Char → List (List Char × List Char)
  | 0, _ => []
  | _ + 1, [] => []
  | fuel + 1, c :: rest =>
    match (if c = '!' ∧ rest.head? = some '[' ∧ rest.tail.head? = some '[' then
             imgTry rest.tail.tail
           else none) with
    | some (g, rest') => ("![[".data ++ g ++ "]]".data, g) :: imageScanF fuel rest'
    | none => imageScanF fuel rest

/-- Python `str.replace` (all non-overlapping occurrences, leftmost first).
`pat` is never empty at the call sites. -/
def replaceAllF : Nat → List Char → List Char → List Char → List Char
  | 0, s, _, _ => s
  | _ + 1, [], _, _ => []
  | fuel + 1, c :: s, pat, rep =>
    if !pat.isEmpty && isPre pat (c :: s) then
      rep ++ replaceAllF fuel ((c :: s).drop pat.length) pat rep
    else c :: replaceAllF fuel s pat rep

/-- `str.replace` with sufficient fuel. -/
def replaceAll (s pat rep : List Char) : List Char := replaceAllF s.length s pat rep

/-- The image-link loop of `replace_wiki_links` (source lines 410-416):
`finditer` over the content produced by the first pass, then for each match a global
`str.replace` of the full match text by `![](group)`. -/
def imagePass (content : List Char) : List Char :=
  (imageScanF content.length content).foldl
    (fun c m => replaceAll c m.1 ("![](".data ++ m.2 ++ ")".data)) content

/-- The whole of `replace_wiki_links` on a body: wiki-link substitution
(which may raise), then the image transformation. -/
def replace_wiki_links (zettlr : Bool) (title2id : List (List Char × List Char))
    (content : List Char) : Option (List Char) :=
  (subWiki (replace_wiki_link zettlr title2id) content).map imagePass

/-!
## Header Codec (`parse_yaml_front_matter`, source lines 115-128)

The pattern is `^---\s*\n(.*?)\n---\s*\n?(.*)` with `re.DOTALL`, anchored by
`re.match`.  The first `\s*` is greedy with backtracking: the engine picks the
largest whitespace prefix `a` of the text after the opening `---` that is
followed by `\n` and for which the remainder still contains the closing
`\n---`; the lazy group 1 then stops at the first `\n---`; the trailing
`\s*\n?` then swallows the maximal whitespace run (the optional `\n` can
never fire after a maximal run), so group 2 is the remainder stripped of
leading whitespace.
-/

/-- The header is modelled as an association list of keys to scalar values;
`none` models a YAML `null` value. -/
abbrev FrontMatter := List (List Char × Option (List Char))

/-- Resolve `---\s*\n` (greedy, with backtracking against the rest of the
pattern) on the text `t` following the opening `---`; returns the text after
the matched newline. -/
def fmOpenSplit (t : List Char) : Option (List Char) :=
  ((List.range (t.takeWhile pySpace).length).reverse).findSome? (fun a =>
    if t.get? a = some '\n' ∧ hasSub "\n---".data (t.drop (a + 1)) then
      some (t.drop (a + 1))
    else none)

/-- The regex split of `parse_yaml_front_matter`: `some (group 1, group 2)`
on a match, `none` when the text has no front-matter block. -/
def fmSplit (content : List Char) : Option (List Char × List Char) :=
  if isPre "---".data content then
    match fmOpenSplit (content.drop 3) with
    | none => none
    | some u =>
      match findSub "\n---".data u with
      | none => none
      | some k => some (u.take k, (u.drop (k + 4)).dropWhile pySpace)
  else none

/-- Python `str.split(sep)` for a single separator character. -/
def splitOnChar (sep : Char) : List Char → List (List Char)
  | [] => [[]]
  | c :: rest =>
    if c = sep then [] :: splitOnChar sep rest
    else
      match splitOnChar sep rest with
      | [] => [[c]]
      | l :: ls => (c :: l) :: ls

/-- Modelled fragment of `yaml.safe_load` for one `key: value` line of a flat
block mapping: the key is the stripped text before the first `:`, the value
the stripped text after it, with an empty value modelling YAML `null`.
Lines without a colon are skipped (the theorems and counterexamples below
only ever use headers inside this fragment). -/
def loadLine (l : List Char) : Option (List Char × Option (List Char)) :=
  match findSub ":".data l with
  | none => none
  | some i =>
    let v := pyStrip (l.drop (i + 1))
    some (pyStrip (l.take i), if v = [] then none else some v)

/-- Modelled fragment of `yaml.safe_load` for a flat block mapping. -/
def loadSimple (front : List Char) : FrontMatter :=
  (splitOnChar '\n' front).filterMap loadLine

/-- `parse_yaml_front_matter`: on no match, `({}, content)`; on a match, the
parsed front matter and the body. -/
def parse_yaml_front_matter (content : List Char) : FrontMatter × List Char :=
  match fmSplit content with
  | none => ([], content)
  | some (front, body) => (loadSimple front, body)

/-- Python `dict.get` on the parsed header: `None` both for an absent key and
for a key with a YAML `null` value; with duplicate keys PyYAML keeps the
last occurrence. -/
def get_fm (fm : FrontMatter) (k : List Char) : Option (List Char) :=
  match fm.reverse.find? (fun p => decide (p.1 = k)) with
  | none => none
  | some (_, none) => none
  | some (_, some v) => some v

/-- Whether the parsed header has an entry for key `k`. -/
def hasKey (fm : FrontMatter) (k : List Char) : Bool :=
  fm.any (fun p => decide (p.1 = k))

/-!
## Identity Assigner (`metadata_init`, source lines 300-356)

Per document: parse the front matter once; if `id` is missing insert an
`id:` line, rewriting the file; if `title` is missing insert a `title:` line
into the rewritten text.  Both insertions test the stricter pattern
`^---\n(.*?)\n---(.*)` (no `\s*` after the delimiters!) and then either
replace the first occurrence of `---` or prepend a fresh block.
-/

/-- `re.match(r"^---\n(.*?)\n---(.*)", content, re.DOTALL)` succeeds. -/
def strict_match (content : List Char) : Bool :=
  isPre "---\n".data content && hasSub "\n---".data (content.drop 4)

/-- Python `str.replace(old, new, 1)`. -/
def replaceFirst (s pat rep : List Char) : List Char :=
  match findSub pat s with
  | none => s
  | some i => s.take i ++ rep ++ s.drop (i + pat.length)

/-- One field insertion of `metadata_init`: `content.replace("---",
"---\n" + line, 1)` when the strict pattern matches, otherwise prepend a
fresh `---` block containing only the new line. -/
def insert_field (line content : List Char) : List Char :=
  if strict_match content then replaceFirst content "---".data ("---\n".data ++ line)
  else "---\n".data ++ line ++ "\n---\n".data ++ content

/-- The per-document content transformation of `metadata_init` (the CSV and
the returned dictionary are not needed by the claims): `newId` is the value
`create_id` produced, `stem` the file's base name without extension. -/
def metadata_step (newId stem content : List Char) : List Char :=
  let fm := (parse_yaml_front_matter content).1
  let c1 :=
    if (get_fm fm "id".data).isNone then insert_field ("id: ".data ++ newId) content
    else content
  if (get_fm fm "title".data).isNone then insert_field ("title: ".data ++ stem) c1
  else c1

/-!
## Header re-serialization (`reformat_yaml_front_matter_in_file`, lines 184-188)

`yaml.safe_dump(data, sort_keys=False, allow_unicode=True).rstrip()` on a
flat mapping whose values are plain scalars produces exactly the newline-
joined `key: value` lines (YAML `null` prints as `null`); the file is then
rewritten as `---\n` + dump + `\n---\n` + `body.lstrip()`.
-/

/-- One dumped line of the modelled `yaml.safe_dump` fragment. -/
def dumpLine : List Char × Option (List Char) → List Char
  | (k, some v) => k ++ ": ".data ++ v
  | (k, none) => k ++ ": null".data

/-- Newline-joined lines (no trailing newline): what
`yaml.safe_dump(...)` followed by `.rstrip()` produces for these lines. -/
def joinNL : List (List Char) → List Char
  | [] => []
  | [x] => x
  | x :: y :: t => x ++ '\n' :: joinNL (y :: t)

/-- `yaml.safe_dump(..., sort_keys=False).rstrip()` on the modelled flat
fragment. -/
def dumpSimple (fm : FrontMatter) : List Char :=
  joinNL (fm.map dumpLine)

/-- The encoding direction of the Header Codec (source line 186), applied to
an unmutated header: delimiter line, serialized header, delimiter line, then
the left-stripped body. -/
def encode_front_matter (data : FrontMatter) (body : List Char) : List Char :=
  "---\n".data ++ dumpSimple data ++ "\n---\n".data ++ pyStripLeft body

/-!
## Header Normalizer (`_normalize_key` / `_normalize_value`, lines 130-163)
-/

/-- `str.lower` on one character (ASCII fragment). -/
def pyLower (c : Char) : Char :=
  if 'A' ≤ c ∧ c ≤ 'Z' then Char.ofNat (c.toNat + 32) else c

/-- `_normalize_key`: `key.strip().lower().replace(" ", "_")`. -/
def normalize_key (k : List Char) : List Char :=
  ((pyStrip k).map pyLower).map (fun c => if c = ' ' then '_' else c)

/-- A YAML header value: `null`, a string, a list, a nested mapping, or any
other scalar (number, boolean, ...), which `_normalize_value` returns
unchanged.  `str` also covers the `_QuotedStr` marker subclass: it satisfies
`isinstance(val, str)` and carries the same characters, so a re-normalization
treats it exactly like the plain string. -/
inductive YVal where
  | null : YVal
  | str : List Char → YVal
  | list : List YVal → YVal
  | map : List (List Char × YVal) → YVal
  | other : Int → YVal

instance : Nonempty YVal := ⟨YVal.null⟩

/-- Python dict assignment `d[k] = v`: overwrite in place if the key exists,
else append. -/
def dictInsertY (m : List (List Char × YVal)) (k : List Char) (v : YVal) :
    List (List Char × YVal) :=
  if m.any (fun p => decide (p.1 = k)) then
    m.map (fun p => if p.1 = k then (k, v) else p)
  else m ++ [(k, v)]

mutual

/-- `_normalize_value` (source lines 145-163): `None` and empty/whitespace
strings become `[]`, non-empty strings are stripped (and force-quoted, which
does not change the characters), lists recurse on elements, mappings recurse
on keys and values, everything else is returned unchanged. -/
def normalize_value : YVal → YVal
  | .null => .list []
  | .str s => if pyStrip s = [] then .list [] else .str (pyStrip s)
  | .list l => .list (normalizeList l)
  | .map m => .map (normalizeEntries m [])
  | .other n => .other n

/-- Elementwise normalization of a YAML list value. -/
def normalizeList : List YVal → List YVal
  | [] => []
  | v :: vs => normalize_value v :: normalizeList vs

/-- The dict comprehension of the mapping branch (and the identical loop of
`reformat_yaml_front_matter_in_file`, lines 178-181): left fold of dict
assignments of normalized keys to normalized values. -/
def normalizeEntries : List (List Char × YVal) → List (List Char × YVal) →
    List (List Char × YVal)
  | [], acc => acc
  | (k, v) :: rest, acc =>
    normalizeEntries rest (dictInsertY acc (normalize_key k) (normalize_value v))

end

/-- The header-level loop of `reformat_yaml_front_matter_in_file`
(lines 178-181), which is the mapping branch of the normalizer. -/
def reformat_header (data : List (List Char × YVal)) : List (List Char × YVal) :=
  normalizeEntries data []

/-!
## Typed-Link Recoder (`transform_typed_links`, lines 422-447)

Inner substitution: `re.sub(r"- (.*?) \[\[(.*?)\]\]", r"[[\1:\2]]", s)`.
Scoped mode: `re.search(r"(?:^|\n)%s[^\n]*\n(.*?)(?=\n##?\s|$)" % heading,
content, re.DOTALL)` (the configured heading is interpolated verbatim; the
model treats it as a literal string, which is exact for headings without
regex metacharacters, as in all inputs used below), then a **global**
`str.replace` of the whole match by `heading + "\n" + transformed section +
"\n"`.
-/

/-- Lazy scan for `(.*?)\]\]` of the typed-link pattern (no newline in the
group, no lookahead). -/
def tlScanDest : List Char → List Char → Option (List Char × List Char)
  | acc, ']' :: ']' :: rest => some (acc.reverse, rest)
  | acc, c :: rest => if c = '\n' then none else tlScanDest (c :: acc) rest
  | _, [] => none

/-- Lazy scan for `(.*?) \[\[` of the typed-link pattern: at each candidate
split try the literal ` [[` and then the destination group; on failure let
the lazy group absorb one more (non-newline) character. -/
def tlScanPre : List Char → List Char → Option (List Char × List Char × List Char)
  | acc, ' ' :: '[' :: '[' :: rest =>
    (match tlScanDest [] rest with
     | some (g2, rest') => some (acc.reverse, g2, rest')
     | none => tlScanPre (' ' :: acc) ('[' :: '[' :: rest))
  | acc, c :: rest => if c = '\n' then none else tlScanPre (c :: acc) rest
  | _, [] => none

/-- The substitution `re.sub(r"- (.*?) \[\[(.*?)\]\]", r"[[\1:\2]]", s)`. -/
def tlSubF : Nat → List Char → List Char
  | 0, s => s
  | fuel + 1, '-' :: ' ' :: rest =>
    (match tlScanPre [] rest with
     | some (g1, g2, rest') =>
       "[[".data ++ g1 ++ ":".data ++ g2 ++ "]]".data ++ tlSubF fuel rest'
     | none => '-' :: tlSubF fuel (' ' :: rest))
  | fuel + 1, c :: rest => c :: tlSubF fuel rest
  | _ + 1, [] => []

/-- The typed-link substitution with sufficient fuel. -/
def tlSub (s : List Char) : List Char := tlSubF s.length s

/-- The lookahead `(?=\n##?\s|$)`: a level-1/level-2 heading line follows, or
the end of the string (`$` also matches just before a final newline). -/
def tlStop : List Char → Bool
  | [] => true
  | ['\n'] => true
  | '\n' :: '#' :: '#' :: c :: _ => pySpace c
  | '\n' :: '#' :: c :: _ => pySpace c
  | _ => false

/-- Lazy scan for the section group `(.*?)` (with `re.DOTALL`) up to the
first position where the lookahead holds; always succeeds because the
lookahead holds at the end of the string. -/
def tlSection : List Char → List Char → List Char × List Char
  | acc, [] => (acc.reverse, [])
  | acc, c :: rest =>
    if tlStop (c :: rest) then (acc.reverse, c :: rest)
    else tlSection (c :: acc) rest

/-- Attempt `HEADING[^\n]*\n(.*?)(?=\n##?\s|$)` at the start of `l`;
returns (matched text, section group). -/
def tlTryAt (heading l : List Char) : Option (List Char × List Char) :=
  if isPre heading l then
    let afterH := l.drop heading.length
    let lineRest := afterH.takeWhile (fun c => !(c == '\n'))
    match afterH.drop lineRest.length with
    | '\n' :: afterLine =>
      let s := tlSection [] afterLine
      some (heading ++ lineRest ++ "\n".data ++ s.1, s.1)
    | _ => none
  else none

/-- Scan for the leftmost position where the `\n`-alternative of
`(?:^|\n)` matches (the matched text then includes the newline). -/
def tlSearchAux (heading : List Char) : Nat → List Char → Option (List Char × List Char)
  | 0, _ => none
  | _ + 1, [] => none
  | fuel + 1, '\n' :: rest =>
    (match tlTryAt heading rest with
     | some (g0, sec) => some ('\n' :: g0, sec)
     | none => tlSearchAux heading fuel rest)
  | fuel + 1, _ :: rest => tlSearchAux heading fuel rest

/-- `re.search` for the scoped-section pattern: the `^` alternative at
position 0 first, then the `\n` alternative at every later position. -/
def tlSearch (heading content : List Char) : Option (List Char × List Char) :=
  match tlTryAt heading content with
  | some r => some r
  | none => tlSearchAux heading content.length content

/-- `transform_typed_links` on a body: in scoped mode (a configured section
heading) substitute inside the located section and splice it back with a
global `str.replace`; if the heading is not found, or in unscoped mode,
follow the source's other branches. -/
def transform_typed_links (semanticsection : Option (List Char))
    (content : List Char) : List Char :=
  match semanticsection with
  | some heading =>
    (match tlSearch heading content with
     | some (g0, sec) =>
       replaceAll content g0 (heading ++ "\n".data ++ tlSub sec ++ "\n".data)
     | none => content)
  | none => tlSub content

/-!
## Selection filter (`filter_files`, lines 192-241)
-/

/-- A file handed to `filter_files`: its name and its text. -/
structure FileEntry where
  name : List Char
  content : List Char

/-- `str.endswith`. -/
def pyEndsWith (s suf : List Char) : Bool := isPre suf.reverse s.reverse

/-- `\w` of the inline-tag pattern (ASCII fragment). -/
def isWordChar (c : Char) : Bool := c.isAlphanum || c == '_'

/-- `re.findall(r"#(\w+)", content)`. -/
def findTagsF : Nat → List Char → List (List Char)
  | 0, _ => []
  | fuel + 1, '#' :: rest =>
    (let w := rest.takeWhile isWordChar
     if w = [] then findTagsF fuel rest
     else w :: findTagsF fuel (rest.drop w.length))
  | fuel + 1, _ :: rest => findTagsF fuel rest
  | _ + 1, [] => []

/-- All inline `#tag` occurrences of a body. -/
def content_hashtags (content : List Char) : List (List Char) :=
  findTagsF content.length content

/-- Python `str.split()` (split on whitespace runs, no empty parts). -/
def pySplitWsF : Nat → List Char → List (List Char)
  | 0, _ => []
  | _ + 1, [] => []
  | fuel + 1, c :: rest =>
    if pySpace c then pySplitWsF fuel rest
    else
      (c :: rest).takeWhile (fun d => !(pySpace d)) ::
        pySplitWsF fuel ((c :: rest).drop ((c :: rest).takeWhile (fun d => !(pySpace d))).length)

/-- `str.split()` with sufficient fuel. -/
def pySplitWs (s : List Char) : List (List Char) := pySplitWsF s.length s

/-- `front_matter.get("tags", [])` wrapped to a list when it is a string
(scalar front-matter fragment; a YAML `null` value, on which the source
would raise a `TypeError` at `set(None)`, is outside the modelled
fragment). -/
def yaml_tags (fm : FrontMatter) : List (List Char) :=
  match fm.reverse.find? (fun p => decide (p.1 = "tags".data)) with
  | some (_, some v) => [v]
  | _ => []

/-- Set inclusion of the two tag collections (Python compares `set`s, so
order and duplicates are irrelevant). -/
def subsetOf (xs ys : List (List Char)) : Bool :=
  xs.all (fun x => ys.any (fun y => decide (y = x)))

/-- The selection decision for one `.md` file (lines 203-234): the tags
predicate (required tags ⊆ header tags ∪ inline tags) and the type predicate
(`type` key present and equal to the required value). -/
def md_selected (ty tg : Option (List Char)) (content : List Char) : Bool :=
  let fm := (parse_yaml_front_matter content).1
  (match tg with
   | none => true
   | some tags =>
     let file_tags := yaml_tags fm ++ content_hashtags content
     let filter_tags := if tags.contains ' ' then pySplitWs tags else [tags]
     subsetOf filter_tags file_tags) &&
  (match ty with
   | none => true
   | some t =>
     hasKey fm "type".data &&
       (match get_fm fm "type".data with
        | some v => decide (v = t)
        | none => false))

/-- `filter_files` (lines 192-241): `.md` files pass through the type/tags
predicates; files ending in `.jpg`, `.jpeg` or `.png` are appended by an
independent `if` with no predicate at all. -/
def filter_files (ty tg : Option (List Char)) : List FileEntry → List (List Char)
  | [] => []
  | f :: rest =>
    (if pyEndsWith f.name ".md".data && md_selected ty tg f.content then [f.name] else []) ++
    (if pyEndsWith f.name ".jpg".data || pyEndsWith f.name ".jpeg".data ||
        pyEndsWith f.name ".png".data then [f.name] else []) ++
    filter_files ty tg rest

/-!
## Predicates used by the theorem statements
-/

/-- Characters that keep a link title, alias or identifier strictly inside
one match of the wiki-link pattern: no newline (`.` does not cross it), no
square bracket (would open or close a match), no pipe (so the link text has
at most one pipe), no `!` (the look-behind). -/
def linkSafe (s : List Char) : Bool :=
  !s.isEmpty &&
    s.all (fun c =>
      !(c == '\n') && !(c == ']') && !(c == '[') && !(c == '|') && !(c == '!'))

/-- Characters that keep an image file name strictly inside one match of the
image pattern: no newline, no square bracket, and no dot (so the extension
match cannot start inside the name). -/
def imageNameSafe (s : List Char) : Bool :=
  !s.isEmpty &&
    s.all (fun c => !(c == '\n') && !(c == ']') && !(c == '[') && !(c == '.'))

/-- A document text of the shape `---\n` + front-matter block + `\n---` +
tail (the tail carries the newline after the closing delimiter, when any). -/
def mkdoc (fr tail : List Char) : List Char :=
  "---\n".data ++ fr ++ "\n---".data ++ tail

/-!
## Supporting lemmas: prefix tests and substring search
-/

theorem isPre_append (p t : List Char) : isPre p (p ++ t) = true := by
  induction p with
  | nil => rfl
  | cons a as ih => simp [isPre, ih]

theorem isPre_eq_append {p s : List Char} (h : isPre p s = true) : ∃ t, s = p ++ t := by
  induction p generalizing s with
  | nil => exact ⟨s, rfl⟩
  | cons a as ih =>
    cases s with
    | nil => simp [isPre] at h
    | cons b bs =>
      rw [isPre, Bool.and_eq_true, beq_iff_eq] at h
      obtain ⟨t, ht⟩ := ih h.2
      exact ⟨t, by rw [List.cons_append, ← h.1, ht]⟩

theorem eq_nil_of_isPre_nil {p : List Char} (h : isPre p [] = true) : p = [] := by
  cases p with
  | nil => rfl
  | cons a as => simp [isPre] at h

theorem findSub_cons (pat : List Char) (c : Char) (rest : List Char) :
    findSub pat (c :: rest) =
      if isPre pat (c :: rest) then some 0 else (findSub pat rest).map (· + 1) := rfl

theorem findSub_min {pat s : List Char} {i : Nat} (h : findSub pat s = some i) :
    ∀ j, j < i → isPre pat (s.drop j) = false := by
  induction s generalizing i with
  | nil =>
    intro j hj
    simp only [findSub] at h
    split at h
    · injection h with h; omega
    · cases h
  | cons c rest ih =>
    intro j hj
    rw [findSub_cons] at h
    split at h
    · injection h with h; omega
    · next hpre =>
      obtain ⟨i', hi', rfl⟩ := Option.map_eq_some'.mp h
      cases j with
      | zero => simpa using hpre
      | succ j' => exact ih hi' j' (by omega)

theorem findSub_isPre {pat s : List Char} {i : Nat} (h : findSub pat s = some i) :
    isPre pat (s.drop i) = true := by
  induction s generalizing i with
  | nil =>
    simp only [findSub] at h
    split at h
    · next hp => injection h with h; subst h; simp [hp, isPre]
    · cases h
  | cons c rest ih =>
    rw [findSub_cons] at h
    split at h
    · next hpre => injection h with h; subst h; simpa using hpre
    · obtain ⟨i', hi', rfl⟩ := Option.map_eq_some'.mp h
      exact ih hi'

theorem findSub_aligned (pat x y : List Char)
    (hx : ∀ j, j < x.length → isPre pat ((x ++ y).drop j) = false)
    (hy : isPre pat y = true) : findSub pat (x ++ y) = some x.length := by
  induction x with
  | nil =>
    cases y with
    | nil => simp [findSub, eq_nil_of_isPre_nil hy]
    | cons b bs => simp [findSub_cons, hy]
  | cons c x' ih =>
    have h0 : isPre pat (c :: (x' ++ y)) = false := by simpa using hx 0 (by simp)
    rw [List.cons_append, findSub_cons, h0]
    simp only [Bool.false_eq_true, if_false]
    rw [ih (fun j hj => by simpa using hx (j + 1) (by simp; omega))]
    simp

theorem findSub_isSome_of_isPre {pat : List Char} (x y : List Char)
    (hy : isPre pat y = true) : hasSub pat (x ++ y) = true := by
  induction x with
  | nil =>
    cases y with
    | nil => simp [hasSub, findSub, eq_nil_of_isPre_nil hy]
    | cons b bs => simp [hasSub, findSub_cons, hy]
  | cons c x' ih =>
    rw [List.cons_append]
    simp only [hasSub, findSub_cons]
    split
    · simp
    · simpa [hasSub] using ih

theorem isPre_close_head {s : List Char} (h : s.head? ≠ some '\n') :
    isPre "\n---".data s = false := by
  cases s with
  | nil => rfl
  | cons c r =>
    have hc : ('\n' == c) = false := by
      rw [beq_eq_false_iff_ne]
      intro e
      exact h (by rw [← e]; rfl)
    show (('\n' == c) && isPre "---".data r) = false
    rw [hc, Bool.false_and]

theorem isPre_close_second {s : List Char} (h : s.head? ≠ some '-') :
    isPre "\n---".data ('\n' :: s) = false := by
  cases s with
  | nil => rfl
  | cons c r =>
    have hc : ('-' == c) = false := by
      rw [beq_eq_false_iff_ne]
      intro e
      exact h (by rw [← e]; rfl)
    show (('\n' == '\n') && (('-' == c) && isPre "--".data r)) = false
    rw [hc, Bool.false_and, Bool.and_false]

theorem drop_append_plus (x z : List Char) (k : Nat) :
    (x ++ z).drop (x.length + k) = z.drop k := by
  rw [← List.drop_drop, List.drop_left]

/-- A newline-free line followed by the closing delimiter: the delimiter is
found exactly after the line. -/
theorem close_single (line tail : List Char) (hnl : ∀ c ∈ line, c ≠ '\n') :
    findSub "\n---".data (line ++ ("\n---".data ++ tail)) = some line.length := by
  apply findSub_aligned
  · intro j hj
    rw [List.drop_append_of_le_length (Nat.le_of_lt hj),
      List.drop_eq_getElem_cons hj, List.cons_append]
    apply isPre_close_head
    simp only [List.head?_cons, ne_eq, Option.some.injEq]
    exact hnl _ (List.getElem_mem hj)
  · exact isPre_append _ _

/-- Prepending a newline-free line (and its newline) to a front-matter block
whose closing delimiter is aligned keeps the delimiter aligned, provided the
old block does not begin with `-`. -/
theorem close_cons (line : List Char) (fc : Char) (fr tail : List Char)
    (hnl : ∀ c ∈ line, c ≠ '\n') (hfc : fc ≠ '-')
    (hclose : findSub "\n---".data ((fc :: fr) ++ ("\n---".data ++ tail)) =
      some (fc :: fr).length) :
    findSub "\n---".data ((line ++ '\n' :: (fc :: fr)) ++ ("\n---".data ++ tail)) =
      some (line ++ '\n' :: (fc :: fr)).length := by
  apply findSub_aligned
  · intro j hj
    have hre : (line ++ '\n' :: (fc :: fr)) ++ ("\n---".data ++ tail) =
        line ++ '\n' :: ((fc :: fr) ++ ("\n---".data ++ tail)) := by
      simp
    rw [hre]
    rcases Nat.lt_trichotomy j line.length with hlt | heq | hgt
    · rw [List.drop_append_of_le_length (Nat.le_of_lt hlt),
        List.drop_eq_getElem_cons hlt, List.cons_append]
      apply isPre_close_head
      simp only [List.head?_cons, ne_eq, Option.some.injEq]
      exact hnl _ (List.getElem_mem hlt)
    · subst heq
      rw [List.drop_left]
      apply isPre_close_second
      simp only [List.cons_append, List.head?_cons, ne_eq, Option.some.injEq]
      exact hfc
    · have hlen2 : (line ++ '\n' :: (fc :: fr)).length = line.length + fr.length + 2 := by
        simp [List.length_append]
        omega
      have hj' : j - line.length - 1 < (fc :: fr).length := by
        rw [hlen2] at hj
        simp only [List.length_cons]
        omega
      rw [show j = line.length + (j - line.length) from by omega, drop_append_plus,
        show j - line.length = (j - line.length - 1) + 1 from by omega,
        List.drop_succ_cons]
      exact findSub_min hclose _ hj'
  · exact isPre_append _ _

/-!
## Supporting lemmas: stripping, line splitting, the flat YAML fragment
-/

theorem dropWhile_eq_self_of_all {l : List Char} (h : ∀ c ∈ l, pySpace c = false) :
    l.dropWhile pySpace = l := by
  cases l with
  | nil => rfl
  | cons c r => rw [List.dropWhile_cons, if_neg (by simp [h c (by simp)])]

theorem pyStrip_eq_self {l : List Char} (h : ∀ c ∈ l, pySpace c = false) :
    pyStrip l = l := by
  unfold pyStrip pyStripRight pyStripLeft
  rw [dropWhile_eq_self_of_all h,
    dropWhile_eq_self_of_all (fun c hc => h c (by simpa using hc)),
    List.reverse_reverse]

theorem pyStrip_cons_space (v : List Char) : pyStrip (' ' :: v) = pyStrip v := by
  unfold pyStrip pyStripLeft
  rw [List.dropWhile_cons, if_pos (by decide)]

theorem splitOnChar_nlfree {x : List Char} (h : ∀ c ∈ x, c ≠ '\n') :
    splitOnChar '\n' x = [x] := by
  induction x with
  | nil => rfl
  | cons c r ih =>
    simp only [splitOnChar]
    rw [if_neg (h c (by simp)), ih (fun d hd => h d (by simp [hd]))]

theorem splitOnChar_append_nl {x : List Char} (y : List Char) (h : ∀ c ∈ x, c ≠ '\n') :
    splitOnChar '\n' (x ++ '\n' :: y) = x :: splitOnChar '\n' y := by
  induction x with
  | nil => simp [splitOnChar]
  | cons c r ih =>
    rw [List.cons_append]
    simp only [splitOnChar]
    rw [if_neg (h c (by simp)), ih (fun d hd => h d (by simp [hd]))]

theorem splitOnChar_ne_nil (sep : Char) (x : List Char) : splitOnChar sep x ≠ [] := by
  cases x with
  | nil => simp [splitOnChar]
  | cons c r =>
    simp only [splitOnChar]
    split
    · simp
    · split <;> simp

theorem loadSimple_cons_line {line : List Char} (fr : List Char)
    (h : ∀ c ∈ line, c ≠ '\n') :
    loadSimple (line ++ '\n' :: fr) = (loadLine line).toList ++ loadSimple fr := by
  unfold loadSimple
  rw [splitOnChar_append_nl fr h, List.filterMap_cons]
  cases hl : loadLine line <;> simp [hl]

theorem loadSimple_single {line : List Char} (h : ∀ c ∈ line, c ≠ '\n') :
    loadSimple line = (loadLine line).toList := by
  unfold loadSimple
  rw [splitOnChar_nlfree h, List.filterMap_cons]
  cases hl : loadLine line <;> simp [hl]

theorem loadLine_mk (k v : List Char) (hk : ∀ c ∈ k, c ≠ ':' ∧ pySpace c = false) :
    loadLine (k ++ ':' :: ' ' :: v) =
      some (k, if pyStrip v = [] then none else some (pyStrip v)) := by
  have hfind : findSub ":".data (k ++ ':' :: ' ' :: v) = some k.length := by
    apply findSub_aligned
    · intro j hj
      rw [List.drop_append_of_le_length (Nat.le_of_lt hj),
        List.drop_eq_getElem_cons hj, List.cons_append]
      show ((':' == k[j]) && _) = false
      have : (':' == k[j]) = false := by
        rw [beq_eq_false_iff_ne]
        exact fun e => (hk _ (List.getElem_mem hj)).1 e.symm
      rw [this, Bool.false_and]
    · rfl
  unfold loadLine
  rw [hfind]
  show some (pyStrip ((k ++ ':' :: ' ' :: v).take k.length),
      if pyStrip ((k ++ ':' :: ' ' :: v).drop (k.length + 1)) = [] then none
      else some (pyStrip ((k ++ ':' :: ' ' :: v).drop (k.length + 1)))) = _
  have hdrop : (k ++ ':' :: ' ' :: v).drop (k.length + 1) = ' ' :: v :=
    drop_append_plus k (':' :: ' ' :: v) 1
  rw [List.take_left' rfl, hdrop, pyStrip_eq_self (fun c hc => (hk c hc).2),
    pyStrip_cons_space]

/-!
## Supporting lemmas: documents of the `mkdoc` shape
-/

theorem mkdoc_cons (fr tail : List Char) :
    mkdoc fr tail = '-' :: '-' :: '-' :: '\n' :: (fr ++ ("\n---".data ++ tail)) := by
  simp only [mkdoc, List.append_assoc]
  rfl

theorem findSome?_single {α β : Type} (f : α → Option β) (a : α) :
    List.findSome? f [a] = f a := by
  cases h : f a <;> simp [List.findSome?, h]

theorem fmSplit_mkdoc (fc : Char) (fr tail : List Char) (hws : pySpace fc = false)
    (hclose : findSub "\n---".data ((fc :: fr) ++ ("\n---".data ++ tail)) =
      some (fc :: fr).length) :
    fmSplit (mkdoc (fc :: fr) tail) = some (fc :: fr, tail.dropWhile pySpace) := by
  have hcond : ('\n' :: ((fc :: fr) ++ ("\n---".data ++ tail))).get? 0 = some '\n' ∧
      hasSub "\n---".data
        (('\n' :: ((fc :: fr) ++ ("\n---".data ++ tail))).drop (0 + 1)) = true := by
    refine ⟨rfl, ?_⟩
    show hasSub "\n---".data ((fc :: fr) ++ ("\n---".data ++ tail)) = true
    unfold hasSub
    rw [hclose]
    rfl
  have htw : List.takeWhile pySpace ('\n' :: ((fc :: fr) ++ ("\n---".data ++ tail))) =
      ['\n'] := by
    rw [List.cons_append, List.takeWhile_cons, if_pos (by decide),
      List.takeWhile_cons, if_neg (by simp [hws])]
  have hopen : fmOpenSplit ('\n' :: ((fc :: fr) ++ ("\n---".data ++ tail))) =
      some ((fc :: fr) ++ ("\n---".data ++ tail)) := by
    unfold fmOpenSplit
    rw [htw]
    show List.findSome? _ ((List.range 1).reverse) = _
    rw [show (List.range 1).reverse = [0] from rfl, findSome?_single]
    show (if ('\n' :: ((fc :: fr) ++ ("\n---".data ++ tail))).get? 0 = some '\n' ∧
        hasSub "\n---".data
          (('\n' :: ((fc :: fr) ++ ("\n---".data ++ tail))).drop (0 + 1)) = true then
        some (('\n' :: ((fc :: fr) ++ ("\n---".data ++ tail))).drop (0 + 1))
      else none) = _
    rw [if_pos hcond]
    rfl
  rw [mkdoc_cons]
  unfold fmSplit
  rw [if_pos (by rfl)]
  rw [show ('-' :: '-' :: '-' :: '\n' :: ((fc :: fr) ++ ("\n---".data ++ tail))).drop 3 =
    '\n' :: ((fc :: fr) ++ ("\n---".data ++ tail)) from rfl]
  rw [hopen]
  show (match findSub "\n---".data ((fc :: fr) ++ ("\n---".data ++ tail)) with
        | none => none
        | some k => some ((((fc :: fr) ++ ("\n---".data ++ tail))).take k,
            ((((fc :: fr) ++ ("\n---".data ++ tail))).drop (k + 4)).dropWhile pySpace)) =
      some (fc :: fr, tail.dropWhile pySpace)
  rw [hclose]
  show some (((fc :: fr) ++ ("\n---".data ++ tail)).take (fc :: fr).length,
      (((fc :: fr) ++ ("\n---".data ++ tail)).drop ((fc :: fr).length + 4)).dropWhile
        pySpace) = _
  rw [List.take_left, drop_append_plus,
    show ("\n---".data ++ tail).drop 4 = tail from rfl]

theorem parse_mkdoc (fc : Char) (fr tail : List Char) (hws : pySpace fc = false)
    (hclose : findSub "\n---".data ((fc :: fr) ++ ("\n---".data ++ tail)) =
      some (fc :: fr).length) :
    parse_yaml_front_matter (mkdoc (fc :: fr) tail) =
      (loadSimple (fc :: fr), tail.dropWhile pySpace) := by
  unfold parse_yaml_front_matter
  rw [fmSplit_mkdoc fc fr tail hws hclose]

theorem strict_match_mkdoc (fr tail : List Char)
    (h : hasSub "\n---".data (fr ++ ("\n---".data ++ tail)) = true) :
    strict_match (mkdoc fr tail) = true := by
  rw [mkdoc_cons]
  unfold strict_match
  rw [show ('-' :: '-' :: '-' :: '\n' :: (fr ++ ("\n---".data ++ tail))).drop 4 =
    fr ++ ("\n---".data ++ tail) from rfl, h]
  rfl

theorem insert_field_mkdoc (line fr tail : List Char)
    (h : strict_match (mkdoc fr tail) = true) :
    insert_field line (mkdoc fr tail) = mkdoc (line ++ '\n' :: fr) tail := by
  unfold insert_field
  rw [if_pos h]
  unfold replaceFirst
  have hfind : findSub "---".data (mkdoc fr tail) = some 0 := by
    rw [mkdoc_cons, findSub_cons, if_pos (by rfl)]
  rw [hfind, mkdoc_cons, mkdoc_cons]
  show [] ++ ("---\n".data ++ line) ++ _ = _
  simp [List.append_assoc]

theorem hasKey_of_get {fm : FrontMatter} {k v : List Char} (h : get_fm fm k = some v) :
    hasKey fm k = true := by
  unfold get_fm at h
  cases hf : fm.reverse.find? (fun p => decide (p.1 = k)) with
  | none => rw [hf] at h; cases h
  | some p =>
    have hdec := List.find?_some hf
    have hmem := List.mem_of_find?_eq_some hf
    unfold hasKey
    rw [List.any_eq_true]
    exact ⟨p, by simpa using hmem, by simpa using hdec⟩

theorem nl_free_line (pre v : List Char) (hpre : ∀ c ∈ pre, c ≠ '\n')
    (hv : ∀ c ∈ v, c ≠ '\n') : ∀ c ∈ pre ++ v, c ≠ '\n' := by
  intro c hc
  rcases List.mem_append.mp hc with h | h
  exacts [hpre c h, hv c h]

theorem loadLine_id (v : List Char) :
    loadLine ("id: ".data ++ v) =
      some ("id".data, if pyStrip v = [] then none else some (pyStrip v)) := by
  have e : "id: ".data ++ v = "id".data ++ ':' :: ' ' :: v := rfl
  rw [e, loadLine_mk _ _ (by decide)]

theorem loadLine_title (v : List Char) :
    loadLine ("title: ".data ++ v) =
      some ("title".data, if pyStrip v = [] then none else some (pyStrip v)) := by
  have e : "title: ".data ++ v = "title".data ++ ':' :: ' ' :: v := rfl
  rw [e, loadLine_mk _ _ (by decide)]

theorem hasKey_cons_of_tail {p : List Char × Option (List Char)} {rest : FrontMatter}
    {k : List Char} (h : hasKey rest k = true) : hasKey (p :: rest) k = true := by
  simp [hasKey] at h ⊢
  exact Or.inr h

theorem hasKey_cons_self (k : List Char) (v : Option (List Char)) (rest : FrontMatter) :
    hasKey ((k, v) :: rest) k = true := by
  simp [hasKey]

theorem hasKey_of_isNone_false {fm : FrontMatter} {k : List Char}
    (h : (get_fm fm k).isNone = false) : hasKey fm k = true := by
  cases hg : get_fm fm k with
  | none => rw [hg] at h; cases h
  | some v => exact hasKey_of_get hg

/-- The two `metadata_init` insertions on a strictly-delimited document:
both `id` and `title` end up as keys of the final header. -/
theorem metadata_keys_strict (fc : Char) (fr tail newId stem : List Char)
    (hws : pySpace fc = false) (hfc : fc ≠ '-')
    (hnlN : ∀ c ∈ newId, c ≠ '\n') (hnlS : ∀ c ∈ stem, c ≠ '\n')
    (hclose : findSub "\n---".data ((fc :: fr) ++ ("\n---".data ++ tail)) =
      some (fc :: fr).length) :
    hasKey (parse_yaml_front_matter
      (metadata_step newId stem (mkdoc (fc :: fr) tail))).1 "id".data = true ∧
    hasKey (parse_yaml_front_matter
      (metadata_step newId stem (mkdoc (fc :: fr) tail))).1 "title".data = true := by
  have hparse := parse_mkdoc fc fr tail hws hclose
  have hstrict : strict_match (mkdoc (fc :: fr) tail) = true :=
    strict_match_mkdoc (fc :: fr) tail (by unfold hasSub; rw [hclose]; rfl)
  have hl1nl : ∀ c ∈ "id: ".data ++ newId, c ≠ '\n' := nl_free_line _ _ (by decide) hnlN
  have hl2nl : ∀ c ∈ "title: ".data ++ stem, c ≠ '\n' := nl_free_line _ _ (by decide) hnlS
  simp only [metadata_step, hparse]
  cases hidv : get_fm (loadSimple (fc :: fr)) "id".data with
  | some v =>
    simp only [hidv, Option.isNone_some, Bool.false_eq_true, if_false]
    cases htv : get_fm (loadSimple (fc :: fr)) "title".data with
    | some w =>
      simp only [htv, Option.isNone_some, Bool.false_eq_true, if_false, hparse]
      exact ⟨hasKey_of_get hidv, hasKey_of_get htv⟩
    | none =>
      simp only [htv, Option.isNone_none, if_true]
      rw [insert_field_mkdoc _ _ _ hstrict]
      have hclose2 := close_cons ("title: ".data ++ stem) fc fr tail hl2nl hfc hclose
      have e2 : ("title: ".data ++ stem) ++ '\n' :: (fc :: fr) =
          't' :: (("itle: ".data ++ stem) ++ '\n' :: (fc :: fr)) := by simp
      rw [e2] at hclose2
      rw [e2, parse_mkdoc 't' _ tail (by decide) hclose2, ← e2]
      rw [loadSimple_cons_line _ hl2nl, loadLine_title]
      constructor
      · exact hasKey_cons_of_tail (hasKey_of_get hidv)
      · exact hasKey_cons_self _ _ _
  | none =>
    simp only [hidv, Option.isNone_none, if_true]
    rw [insert_field_mkdoc _ _ _ hstrict]
    have hclose1 := close_cons ("id: ".data ++ newId) fc fr tail hl1nl hfc hclose
    have e1 : ("id: ".data ++ newId) ++ '\n' :: (fc :: fr) =
        'i' :: (("d: ".data ++ newId) ++ '\n' :: (fc :: fr)) := by simp
    cases htv : get_fm (loadSimple (fc :: fr)) "title".data with
    | some w =>
      simp only [htv, Option.isNone_some, Bool.false_eq_true, if_false]
      rw [e1] at hclose1
      rw [e1, parse_mkdoc 'i' _ tail (by decide) hclose1, ← e1]
      rw [loadSimple_cons_line _ hl1nl, loadLine_id]
      constructor
      · exact hasKey_cons_self _ _ _
      · exact hasKey_cons_of_tail (hasKey_of_get htv)
    | none =>
      simp only [htv, Option.isNone_none, if_true]
      have hstrict1 : strict_match (mkdoc (("id: ".data ++ newId) ++ '\n' :: (fc :: fr))
          tail) = true :=
        strict_match_mkdoc _ tail (by unfold hasSub; rw [hclose1]; rfl)
      rw [insert_field_mkdoc _ _ _ hstrict1]
      have hclose2 : findSub "\n---".data
          ((("title: ".data ++ stem) ++ '\n' :: (("id: ".data ++ newId) ++ '\n' :: (fc :: fr)))
            ++ ("\n---".data ++ tail)) =
          some (("title: ".data ++ stem) ++ '\n' ::
            (("id: ".data ++ newId) ++ '\n' :: (fc :: fr))).length := by
        rw [e1] at hclose1 ⊢
        exact close_cons _ 'i' _ tail hl2nl (by decide) hclose1
      have e2 : ("title: ".data ++ stem) ++ '\n' ::
          (("id: ".data ++ newId) ++ '\n' :: (fc :: fr)) =
          't' :: (("itle: ".data ++ stem) ++ '\n' ::
            (("id: ".data ++ newId) ++ '\n' :: (fc :: fr))) := by simp
      rw [e2] at hclose2
      rw [e2, parse_mkdoc 't' _ tail (by decide) hclose2, ← e2]
      rw [loadSimple_cons_line _ hl2nl, loadLine_title]
      constructor
      · apply hasKey_cons_of_tail
        rw [loadSimple_cons_line _ hl1nl, loadLine_id]
        exact hasKey_cons_self _ _ _
      · exact hasKey_cons_self _ _ _


/-- The `metadata_init` insertions on a document without front matter: a
fresh block is prepended for `id`, then `title` is inserted into it. -/
theorem metadata_keys_nofm (content newId stem : List Char)
    (hnlN : ∀ c ∈ newId, c ≠ '\n') (hnlS : ∀ c ∈ stem, c ≠ '\n')
    (hparse : parse_yaml_front_matter content = ([], content))
    (hstrict : strict_match content = false) :
    hasKey (parse_yaml_front_matter (metadata_step newId stem content)).1 "id".data = true ∧
    hasKey (parse_yaml_front_matter (metadata_step newId stem content)).1
      "title".data = true := by
  have hl1nl : ∀ c ∈ "id: ".data ++ newId, c ≠ '\n' := nl_free_line _ _ (by decide) hnlN
  have hl2nl : ∀ c ∈ "title: ".data ++ stem, c ≠ '\n' := nl_free_line _ _ (by decide) hnlS
  simp only [metadata_step, hparse]
  have hget : ∀ k, get_fm ([] : FrontMatter) k = none := fun _ => rfl
  simp only [hget, Option.isNone_none, if_true]
  have hins1 : insert_field ("id: ".data ++ newId) content =
      mkdoc ("id: ".data ++ newId) ('\n' :: content) := by
    unfold insert_field
    rw [hstrict]
    simp [mkdoc]
  rw [hins1]
  have hclose1 : findSub "\n---".data
      (("id: ".data ++ newId) ++ ("\n---".data ++ ('\n' :: content))) =
      some ("id: ".data ++ newId).length := close_single _ _ hl1nl
  have hstrict1 : strict_match (mkdoc ("id: ".data ++ newId) ('\n' :: content)) = true :=
    strict_match_mkdoc _ _ (by unfold hasSub; rw [hclose1]; rfl)
  rw [insert_field_mkdoc _ _ _ hstrict1]
  have e1 : "id: ".data ++ newId = 'i' :: ("d: ".data ++ newId) := rfl
  rw [e1] at hclose1
  have hclose2 := close_cons ("title: ".data ++ stem) 'i' ("d: ".data ++ newId)
    ('\n' :: content) hl2nl (by decide) hclose1
  have e2 : ("title: ".data ++ stem) ++ '\n' :: ('i' :: ("d: ".data ++ newId)) =
      't' :: (("itle: ".data ++ stem) ++ '\n' :: ('i' :: ("d: ".data ++ newId))) := by simp
  rw [e2] at hclose2
  rw [show ("title: ".data ++ stem) ++ '\n' :: ("id: ".data ++ newId) =
    ("title: ".data ++ stem) ++ '\n' :: ('i' :: ("d: ".data ++ newId)) from by rw [← e1]]
  rw [e2, parse_mkdoc 't' _ _ (by decide) hclose2, ← e2]
  rw [loadSimple_cons_line _ hl2nl]
  rw [show ('i' :: ("d: ".data ++ newId)) = "id: ".data ++ newId from by rw [← e1]]
  rw [loadLine_title]
  constructor
  · apply hasKey_cons_of_tail
    rw [loadSimple_single hl1nl, loadLine_id]
    simp [hasKey]
  · exact hasKey_cons_self _ _ _


/-- C2 counterexample: on a document whose opening delimiter line is
`---` followed by trailing spaces, the liberal front-matter parse finds the
`id` field (so none is inserted), but both insertion regexes use the strict
pattern, so the synthesized `title` block is prepended as a new header and
the final header has a `title` key but no `id` key — contradicting the
claimed post-condition `id present AND title present`. -/
theorem C2_counterexample :
    metadata_step "20990101010101".data "T".data "---   \nid: 5\n---\nbody".data =
      "---\ntitle: T\n---\n---   \nid: 5\n---\nbody".data ∧
    hasKey (parse_yaml_front_matter
      (metadata_step "20990101010101".data "T".data "---   \nid: 5\n---\nbody".data)).1
      "id".data = false := by decide

/-- C2 (amended): after the Identity Assigner's per-document pass, the final
header contains both an `id` key and a `title` key, provided the document
either (first conjunct) consists of a front-matter block whose opening
delimiter line is exactly `---` (the `mkdoc` shape, with a non-blank,
non-dash first header character, newline-free synthesized id and title, and
the closing delimiter found right after the block), or (second conjunct) has
no front-matter block at all. -/
theorem C2_identity_assigner_totality :
    (∀ (fc : Char) (fr tail newId stem : List Char),
        pySpace fc = false → fc ≠ '-' →
        (∀ c ∈ newId, c ≠ '\n') → (∀ c ∈ stem, c ≠ '\n') →
        findSub "\n---".data ((fc :: fr) ++ ("\n---".data ++ tail)) =
          some (fc :: fr).length →
        hasKey (parse_yaml_front_matter
          (metadata_step newId stem (mkdoc (fc :: fr) tail))).1 "id".data = true ∧
        hasKey (parse_yaml_front_matter
          (metadata_step newId stem (mkdoc (fc :: fr) tail))).1 "title".data = true) ∧
    (∀ (content newId stem : List Char),
        (∀ c ∈ newId, c ≠ '\n') → (∀ c ∈ stem, c ≠ '\n') →
        parse_yaml_front_matter content = ([], content) →
        strict_match content = false →
        hasKey (parse_yaml_front_matter
          (metadata_step newId stem content)).1 "id".data = true ∧
        hasKey (parse_yaml_front_matter
          (metadata_step newId stem content)).1 "title".data = true) :=
  ⟨fun fc fr tail newId stem h1 h2 h3 h4 h5 =>
      metadata_keys_strict fc fr tail newId stem h1 h2 h3 h4 h5,
    fun content newId stem h1 h2 h3 h4 =>
      metadata_keys_nofm content newId stem h1 h2 h3 h4⟩

/-- Witness for C2: both conjuncts applied at concrete documents. -/
theorem C2_identity_assigner_totality_witness :
    (hasKey (parse_yaml_front_matter
      (metadata_step "20990101010101".data "T".data
        (mkdoc ('a' :: ": b".data) "\nbody".data))).1 "id".data = true ∧
     hasKey (parse_yaml_front_matter
      (metadata_step "20990101010101".data "T".data
        (mkdoc ('a' :: ": b".data) "\nbody".data))).1 "title".data = true) ∧
    (hasKey (parse_yaml_front_matter
      (metadata_step "20990101010101".data "T".data "plain body".data)).1
        "id".data = true ∧
     hasKey (parse_yaml_front_matter
      (metadata_step "20990101010101".data "T".data "plain body".data)).1
        "title".data = true) :=
  ⟨C2_identity_assigner_totality.1 'a' ": b".data "\nbody".data
      "20990101010101".data "T".data (by decide) (by decide) (by decide) (by decide)
      (by decide),
    C2_identity_assigner_totality.2 "plain body".data "20990101010101".data "T".data
      (by decide) (by decide) (by decide) (by decide)⟩


/-- Well-formedness of a header for the canonical-serialization round trip:
keys without colons or whitespace, values non-null, non-empty, strip-stable
and newline-free. -/
def wfHeader (m : FrontMatter) : Prop :=
  ∀ p ∈ m, (∀ c ∈ p.1, c ≠ ':' ∧ pySpace c = false) ∧
    (match p.2 with
     | none => False
     | some v => pyStrip v = v ∧ v ≠ [] ∧ ∀ c ∈ v, c ≠ '\n')

theorem wfHeader_line_nlfree {k v : List Char}
    (hk : ∀ c ∈ k, c ≠ ':' ∧ pySpace c = false)
    (hv : ∀ c ∈ v, c ≠ '\n') : ∀ c ∈ k ++ ':' :: ' ' :: v, c ≠ '\n' := by
  intro c hc
  rcases List.mem_append.mp hc with h | h
  · intro e
    subst e
    exact absurd (hk _ h).2 (by decide)
  · rcases h with _ | ⟨_, h⟩
    · decide
    · rcases h with _ | ⟨_, h⟩
      · decide
      · exact hv c h

theorem load_dump {m : FrontMatter} (hwf : wfHeader m) :
    loadSimple (dumpSimple m) = m := by
  induction m with
  | nil => rfl
  | cons p rest ih =>
    obtain ⟨k, w⟩ := p
    have hall := hwf (k, w) (by simp)
    cases w with
    | none => exact absurd hall.2 (by simp)
    | some v =>
    have hk := hall.1
    have hv2 : pyStrip v = v ∧ v ≠ [] ∧ ∀ c ∈ v, c ≠ '\n' := hall.2
    obtain ⟨hstrip, hne, hnl⟩ := hv2
    have hline : dumpLine (k, some v) = k ++ ':' :: ' ' :: v := by
      simp [dumpLine]
    have hlinenl := wfHeader_line_nlfree hk hnl
    have hload : loadLine (k ++ ':' :: ' ' :: v) = some (k, some v) := by
      rw [loadLine_mk k v hk, hstrip, if_neg hne]
    cases rest with
    | nil =>
      show loadSimple (dumpLine (k, some v)) = [(k, some v)]
      rw [hline, loadSimple_single hlinenl, hload]
      rfl
    | cons q t =>
      have hdump : dumpSimple ((k, some v) :: q :: t) =
          (k ++ ':' :: ' ' :: v) ++ '\n' :: dumpSimple (q :: t) := by
        show joinNL (dumpLine (k, some v) :: dumpLine q :: (t.map dumpLine)) = _
        rw [joinNL, hline]
        rfl
      rw [hdump, loadSimple_cons_line _ hlinenl, hload,
        ih (fun p hp => hwf p (by simp [hp]))]
      rfl

theorem dump_head {m : FrontMatter} (hm : m ≠ []) (hwf : wfHeader m) :
    ∃ fc fr, dumpSimple m = fc :: fr ∧ pySpace fc = false := by
  cases m with
  | nil => exact absurd rfl hm
  | cons p rest =>
    obtain ⟨k, w⟩ := p
    have hall := hwf (k, w) (by simp)
    cases w with
    | none => exact absurd hall.2 (by simp)
    | some v =>
    have hk := hall.1
    have hjoin : ∃ t, dumpSimple ((k, some v) :: rest) = dumpLine (k, some v) ++ t := by
      cases rest with
      | nil => exact ⟨[], by simp [dumpSimple, joinNL]⟩
      | cons q u =>
        exact ⟨'\n' :: joinNL (dumpLine q :: (u.map dumpLine)), rfl⟩
    obtain ⟨t, ht⟩ := hjoin
    cases k with
    | nil => exact ⟨':', (' ' :: v) ++ t, by rw [ht]; simp [dumpLine], by decide⟩
    | cons kc k' =>
      refine ⟨kc, (k' ++ ':' :: ' ' :: v) ++ t, by rw [ht]; simp [dumpLine], ?_⟩
      exact (hk kc (by simp)).2


/-- C3 counterexample: `---\nfoo:   1\n---\nbody` has a well-formed header
block and no trailing-whitespace anomaly, yet re-encoding its parse yields
`---\nfoo: 1\n---\nbody` — the serializer does not reproduce the original
spacing, so `encode(decode(text))` is not byte-identical to `text`. -/
theorem C3_counterexample :
    parse_yaml_front_matter "---\nfoo:   1\n---\nbody".data =
      ([("foo".data, some "1".data)], "body".data) ∧
    encode_front_matter
      (parse_yaml_front_matter "---\nfoo:   1\n---\nbody".data).1
      (parse_yaml_front_matter "---\nfoo:   1\n---\nbody".data).2 =
      "---\nfoo: 1\n---\nbody".data ∧
    "---\nfoo: 1\n---\nbody".data ≠ "---\nfoo:   1\n---\nbody".data := by decide

/-- C3 (amended): the Header Codec round trip `encode(decode(text)) = text`
holds when, additionally, the header block text is exactly the canonical
serialization `dumpSimple m` of a well-formed header `m` (keys without
colons or whitespace, values non-null, non-empty, strip-stable and
newline-free), the closing delimiter is the one right after the block, and
the body does not begin with whitespace. -/
theorem C3_header_codec_roundtrip (m : FrontMatter) (body : List Char)
    (hm : m ≠ []) (hwf : wfHeader m)
    (hbody : body.dropWhile pySpace = body)
    (hclose : findSub "\n---".data
      (dumpSimple m ++ ("\n---".data ++ ('\n' :: body))) =
      some (dumpSimple m).length) :
    encode_front_matter
      (parse_yaml_front_matter (mkdoc (dumpSimple m) ('\n' :: body))).1
      (parse_yaml_front_matter (mkdoc (dumpSimple m) ('\n' :: body))).2 =
      mkdoc (dumpSimple m) ('\n' :: body) := by
  obtain ⟨fc, fr, hd, hws⟩ := dump_head hm hwf
  rw [hd] at hclose
  have hparse := parse_mkdoc fc fr ('\n' :: body) hws hclose
  have hb2 : ('\n' :: body).dropWhile pySpace = body := by
    rw [List.dropWhile_cons, if_pos (by decide), hbody]
  have h1 : (parse_yaml_front_matter (mkdoc (dumpSimple m) ('\n' :: body))).1 = m := by
    rw [hd, hparse]
    show loadSimple (fc :: fr) = m
    rw [← hd, load_dump hwf]
  have h2 : (parse_yaml_front_matter (mkdoc (dumpSimple m) ('\n' :: body))).2 = body := by
    rw [hd, hparse]
    exact hb2
  rw [h1, h2]
  unfold encode_front_matter pyStripLeft
  rw [hbody]
  simp [mkdoc]

/-- Witness for C3 at a concrete one-line header and body. -/
theorem C3_header_codec_roundtrip_witness :
    encode_front_matter
      (parse_yaml_front_matter
        (mkdoc (dumpSimple [("a".data, some "b".data)]) ('\n' :: "body".data))).1
      (parse_yaml_front_matter
        (mkdoc (dumpSimple [("a".data, some "b".data)]) ('\n' :: "body".data))).2 =
      mkdoc (dumpSimple [("a".data, some "b".data)]) ('\n' :: "body".data) :=
  C3_header_codec_roundtrip [("a".data, some "b".data)] "body".data (by decide)
    (by
      intro p hp
      rw [List.mem_singleton] at hp
      subst hp
      exact ⟨by decide, by decide, by decide, by decide⟩)
    (by decide) (by decide)


/-!
## Supporting lemmas: the wiki-link scanner
-/

theorem scanInner_cons (acc : List Char) (c : Char) (rest : List Char) :
    scanInner acc (c :: rest) =
      if c = '\n' then none
      else if c = ']' ∧ rest.head? = some ']' then
        if acc = [] then scanInner [']'] rest
        else if rest.tail.head? = some '(' then scanInner (']' :: acc) rest
        else some (acc.reverse, rest.tail)
      else scanInner (c :: acc) rest := rfl

/-- The lazy group scan on a bracket-free, newline-free group text followed
by `]]` and a non-`(` continuation: the group is exactly that text. -/
theorem scanInner_through (t : List Char) (acc post : List Char)
    (hne : acc ≠ [] ∨ t ≠ [])
    (ht : ∀ c ∈ t, c ≠ '\n' ∧ c ≠ ']')
    (hpost : post.head? ≠ some '(') :
    scanInner acc (t ++ ']' :: ']' :: post) = some (acc.reverse ++ t, post) := by
  induction t generalizing acc with
  | nil =>
    rcases hne with h | h
    · rw [List.nil_append, scanInner_cons, if_neg (by decide),
        if_pos ⟨rfl, rfl⟩, if_neg h]
      simp only [List.tail_cons]
      rw [if_neg hpost]
      simp
    · exact absurd rfl h
  | cons a t' ih =>
    have ha := ht a (by simp)
    rw [List.cons_append, scanInner_cons, if_neg ha.1,
      if_neg (fun hcon => ha.2 hcon.1)]
    rw [ih (a :: acc) (Or.inl (by simp)) (fun c hc => ht c (by simp [hc]))]
    simp

theorem subWikiAuxF_step_none (f : List Char → Option (List Char)) (n : Nat)
    (prev : Option Char) (c : Char) (rest : List Char)
    (hcond : (if c = '[' ∧ rest.head? = some '[' ∧ prev ≠ some '!' then
      scanInner [] rest.tail else none) = none) :
    subWikiAuxF f (n + 1) prev (c :: rest) =
      (subWikiAuxF f n (some c) rest).map (fun t => c :: t) := by
  simp only [subWikiAuxF]
  rw [hcond]

theorem subWikiAuxF_step_match (f : List Char → Option (List Char)) (n : Nat)
    (prev : Option Char) (c : Char) (rest inner rest' : List Char)
    (hcond : (if c = '[' ∧ rest.head? = some '[' ∧ prev ≠ some '!' then
      scanInner [] rest.tail else none) = some (inner, rest')) :
    subWikiAuxF f (n + 1) prev (c :: rest) =
      (match f inner with
       | none => none
       | some rep => (subWikiAuxF f n (some ']') rest').map (fun t => rep ++ t)) := by
  simp only [subWikiAuxF]
  rw [hcond]

theorem hasSub_tail {pat : List Char} {c : Char} {rest : List Char}
    (h : hasSub pat (c :: rest) = false) : hasSub pat rest = false := by
  unfold hasSub at *
  rw [findSub_cons] at h
  split at h
  · simp at h
  · cases hf : findSub pat rest with
    | none => rfl
    | some i => rw [hf] at h; simp at h

theorem hasSub_false_of_head_notin (a : Char) (p l : List Char) (h : a ∉ l) :
    hasSub (a :: p) l = false := by
  cases hf : findSub (a :: p) l with
  | none => simp [hasSub, hf]
  | some i =>
    have hpre := findSub_isPre hf
    obtain ⟨t, ht⟩ := isPre_eq_append hpre
    have : a ∈ l.drop i := by rw [ht]; simp
    exact absurd (List.mem_of_mem_drop this) h

/-- Text with no `[[` passes through the wiki-link substitution unchanged. -/
theorem subWikiAuxF_no_ll (f : List Char → Option (List Char)) :
    ∀ (fuel : Nat) (prev : Option Char) (l : List Char),
      hasSub "[[".data l = false → subWikiAuxF f fuel prev l = some l := by
  intro fuel
  induction fuel with
  | zero => intro prev l _; rfl
  | succ n ih =>
    intro prev l h
    cases l with
    | nil => rfl
    | cons c rest =>
      have hcond : ¬(c = '[' ∧ rest.head? = some '[' ∧ prev ≠ some '!') := by
        rintro ⟨rfl, h2, -⟩
        cases rest with
        | nil => simp at h2
        | cons d rest' =>
          simp only [List.head?_cons, Option.some.injEq] at h2
          subst h2
          rw [hasSub, findSub_cons, if_pos (by rfl)] at h
          simp at h
      rw [subWikiAuxF_step_none f n prev c rest (if_neg hcond),
        ih (some c) rest (hasSub_tail h)]
      rfl

/-- Text with no `![[` contains no image match. -/
theorem imageScanF_no_bang :
    ∀ (fuel : Nat) (l : List Char),
      hasSub "![[".data l = false → imageScanF fuel l = [] := by
  intro fuel
  induction fuel with
  | zero => intro l _; rfl
  | succ n ih =>
    intro l h
    cases l with
    | nil => rfl
    | cons c rest =>
      have hcond : ¬(c = '!' ∧ rest.head? = some '[' ∧ rest.tail.head? = some '[') := by
        rintro ⟨rfl, h2, h3⟩
        cases rest with
        | nil => simp at h2
        | cons d rest' =>
          simp only [List.head?_cons, Option.some.injEq] at h2
          subst h2
          cases rest' with
          | nil => simp at h3
          | cons e rest'' =>
            simp only [List.tail_cons, List.head?_cons, Option.some.injEq] at h3
            subst h3
            rw [hasSub, findSub_cons, if_pos (by rfl)] at h
            simp at h
      have hstep : imageScanF (n + 1) (c :: rest) = imageScanF n rest := by
        simp only [imageScanF]
        rw [if_neg hcond]
      rw [hstep, ih rest (hasSub_tail h)]

/-- Text with no `![[` passes through the image pass unchanged. -/
theorem imagePass_no_bang {l : List Char} (h : hasSub "![[".data l = false) :
    imagePass l = l := by
  unfold imagePass
  rw [imageScanF_no_bang l.length l h]
  rfl


theorem subWikiAuxF_nil (f : List Char → Option (List Char)) (n : Nat)
    (prev : Option Char) : subWikiAuxF f n prev [] = some [] := by
  cases n <;> rfl

theorem takeWhile_not_pipe (t rest : List Char) (hp : '|' ∉ t) :
    (t ++ '|' :: rest).takeWhile (fun c => !(c == '|')) = t := by
  induction t with
  | nil => simp [List.takeWhile_cons]
  | cons a t' ih =>
    have ha : a ≠ '|' := fun e => hp (by simp [e])
    rw [List.cons_append, List.takeWhile_cons, if_pos (by simp [ha])]
    rw [ih (fun hm => hp (by simp [hm]))]

theorem dropWhile_not_pipe (t rest : List Char) (hp : '|' ∉ t) :
    (t ++ '|' :: rest).dropWhile (fun c => !(c == '|')) = '|' :: rest := by
  induction t with
  | nil => simp [List.dropWhile_cons]
  | cons a t' ih =>
    have ha : a ≠ '|' := fun e => hp (by simp [e])
    rw [List.cons_append, List.dropWhile_cons, if_pos (by simp [ha])]
    exact ih (fun hm => hp (by simp [hm]))

theorem count_pipe_one (t a : List Char) (hpt : '|' ∉ t) (hpa : '|' ∉ a) :
    (t ++ '|' :: a).count '|' = 1 := by
  rw [List.count_append, List.count_cons_self,
    List.count_eq_zero.mpr hpt, List.count_eq_zero.mpr hpa]

theorem linkSafe_props {s : List Char} (h : linkSafe s = true) :
    ∀ c ∈ s, c ≠ '\n' ∧ c ≠ ']' ∧ c ≠ '[' ∧ c ≠ '|' ∧ c ≠ '!' := by
  intro c hc
  unfold linkSafe at h
  rw [Bool.and_eq_true, List.all_eq_true] at h
  have h2 := h.2 c hc
  simp at h2
  exact ⟨h2.1.1.1.1, h2.1.1.1.2, h2.1.1.2, h2.1.2, h2.2⟩

theorem linkSafe_ne_nil {s : List Char} (h : linkSafe s = true) : s ≠ [] := by
  unfold linkSafe at h
  rw [Bool.and_eq_true] at h
  simpa using h.1

/-- `replace_wiki_link` on a resolvable plain link text. -/
theorem replace_wiki_link_plain (z : Bool) (m : List (List Char × List Char))
    (title id : List Char) (hp : '|' ∉ title) (hid : dictLookup m title = some id) :
    replace_wiki_link z m title =
      some (if z then "[".data ++ title ++ "]([[".data ++ id ++ "]])".data
            else "[[".data ++ id ++ "|".data ++ title ++ "]]".data) := by
  simp only [replace_wiki_link]
  rw [if_neg (by simp [hp]), hid]
  cases z <;> rfl

/-- `replace_wiki_link` on a resolvable aliased link text. -/
theorem replace_wiki_link_aliased (z : Bool) (m : List (List Char × List Char))
    (title al id : List Char) (hpt : '|' ∉ title) (hpa : '|' ∉ al)
    (hid : dictLookup m title = some id) :
    replace_wiki_link z m (title ++ '|' :: al) =
      some (if z then "[".data ++ pyStrip al ++ "]([[".data ++ id ++ "]])".data
            else "[[".data ++ id ++ "|".data ++ pyStrip al ++ "]]".data) := by
  simp only [replace_wiki_link]
  rw [if_pos (by simp), if_neg (by rw [count_pipe_one _ _ hpt hpa]; omega),
    takeWhile_not_pipe _ _ hpt, dropWhile_not_pipe _ _ hpt, List.tail_cons, hid]
  cases z <;> rfl

/-- `replace_wiki_link` on a ghost plain link text: unchanged. -/
theorem replace_wiki_link_ghost_plain (z : Bool) (m : List (List Char × List Char))
    (inner : List Char) (hp : '|' ∉ inner) (hlook : dictLookup m inner = none) :
    replace_wiki_link z m inner = some ("[[".data ++ inner ++ "]]".data) := by
  simp only [replace_wiki_link]
  rw [if_neg (by simp [hp]), hlook]

/-- `replace_wiki_link` on a ghost aliased link text: unchanged. -/
theorem replace_wiki_link_ghost_aliased (z : Bool) (m : List (List Char × List Char))
    (t a : List Char) (hpt : '|' ∉ t) (hpa : '|' ∉ a)
    (hlook : dictLookup m t = none) :
    replace_wiki_link z m (t ++ '|' :: a) =
      some ("[[".data ++ (t ++ '|' :: a) ++ "]]".data) := by
  simp only [replace_wiki_link]
  rw [if_pos (by simp), if_neg (by rw [count_pipe_one _ _ hpt hpa]; omega),
    takeWhile_not_pipe _ _ hpt, hlook]

/-- One wiki-link match at the head of the scan. -/
theorem subWiki_link_step (f : List Char → Option (List Char)) (n : Nat)
    (prev : Option Char) (t post : List Char)
    (hprev : prev ≠ some '!') (htne : t ≠ [])
    (ht : ∀ c ∈ t, c ≠ '\n' ∧ c ≠ ']') (hpost : post.head? ≠ some '(') :
    subWikiAuxF f (n + 1) prev ('[' :: '[' :: (t ++ ']' :: ']' :: post)) =
      (match f t with
       | none => none
       | some rep => (subWikiAuxF f n (some ']') post).map (fun u => rep ++ u)) := by
  apply subWikiAuxF_step_match
  rw [if_pos ⟨rfl, rfl, hprev⟩]
  show scanInner [] (t ++ ']' :: ']' :: post) = some (t, post)
  have h := scanInner_through t [] post (Or.inr htne) ht hpost
  simpa using h


/-- `replace_wiki_links` on a body that is exactly one wiki link whose
callback result contains no `![[`. -/
theorem replace_wiki_links_single (z : Bool) (m : List (List Char × List Char))
    (t rep : List Char) (htne : t ≠ [])
    (ht : ∀ c ∈ t, c ≠ '\n' ∧ c ≠ ']')
    (hf : replace_wiki_link z m t = some rep)
    (hnb : '!' ∉ rep) :
    replace_wiki_links z m ('[' :: '[' :: (t ++ ']' :: ']' :: [])) = some rep := by
  unfold replace_wiki_links subWiki
  rw [show ('[' :: '[' :: (t ++ ']' :: ']' :: ([] : List Char))).length =
    (t.length + 3) + 1 from by simp]
  rw [subWiki_link_step _ _ _ _ _ (by simp) htne ht (by simp), hf]
  show ((subWikiAuxF _ _ (some ']') []).map (fun u => rep ++ u)).map imagePass = some rep
  rw [subWikiAuxF_nil]
  show some (imagePass (rep ++ [])) = some rep
  have hns : hasSub "![[".data rep = false := by
    rw [show "![[".data = '!' :: "[[".data from rfl]
    exact hasSub_false_of_head_notin '!' _ _ hnb
  rw [List.append_nil, imagePass_no_bang hns]

/-- C1: the Reference Rewriter's match callback rewrites a plain reference
`[[Title]]` with a mapped title to `[[Identifier|Title]]` (default) or
`[Title]([[Identifier]])` (Zettlr), and an aliased reference
`[[Title|Alias]]` to `[[Identifier|Alias]]` with the alias stripped of
surrounding whitespace, or `[Alias]([[Identifier]])` under Zettlr; the last
two conjuncts run the whole pass on a single-reference body. -/
theorem C1_reference_rewriter (m : List (List Char × List Char))
    (title al id : List Char)
    (hpa : '|' ∉ al) (hid : dictLookup m title = some id)
    (hsT : linkSafe title = true) (hsI : linkSafe id = true) :
    replace_wiki_link false m title =
      some ("[[".data ++ id ++ "|".data ++ title ++ "]]".data) ∧
    replace_wiki_link true m title =
      some ("[".data ++ title ++ "]([[".data ++ id ++ "]])".data) ∧
    replace_wiki_link false m (title ++ '|' :: al) =
      some ("[[".data ++ id ++ "|".data ++ pyStrip al ++ "]]".data) ∧
    replace_wiki_link true m (title ++ '|' :: al) =
      some ("[".data ++ pyStrip al ++ "]([[".data ++ id ++ "]])".data) ∧
    replace_wiki_links false m ('[' :: '[' :: (title ++ ']' :: ']' :: [])) =
      some ("[[".data ++ id ++ "|".data ++ title ++ "]]".data) ∧
    replace_wiki_links true m ('[' :: '[' :: (title ++ ']' :: ']' :: [])) =
      some ("[".data ++ title ++ "]([[".data ++ id ++ "]])".data) := by
  have hbang : ∀ s, linkSafe s = true → '!' ∉ s :=
    fun s hs hm => (linkSafe_props hs _ hm).2.2.2.2 rfl
  have hp : '|' ∉ title := fun hm => (linkSafe_props hsT _ hm).2.2.2.1 rfl
  have ht : ∀ c ∈ title, c ≠ '\n' ∧ c ≠ ']' :=
    fun c hc => ⟨(linkSafe_props hsT _ hc).1, (linkSafe_props hsT _ hc).2.1⟩
  refine ⟨?_, ?_, ?_, ?_, ?_, ?_⟩
  · simpa using replace_wiki_link_plain false m title id hp hid
  · simpa using replace_wiki_link_plain true m title id hp hid
  · simpa using replace_wiki_link_aliased false m title al id hp hpa hid
  · simpa using replace_wiki_link_aliased true m title al id hp hpa hid
  · refine replace_wiki_links_single false m title _ (linkSafe_ne_nil hsT) ht
      (by simpa using replace_wiki_link_plain false m title id hp hid) ?_
    intro h
    simp at h
    rcases h with h | h
    exacts [hbang id hsI h, hbang title hsT h]
  · refine replace_wiki_links_single true m title _ (linkSafe_ne_nil hsT) ht
      (by simpa using replace_wiki_link_plain true m title id hp hid) ?_
    intro h
    simp at h
    rcases h with h | h
    exacts [hbang title hsT h, hbang id hsI h]

/-- Witness for C1 at a concrete map, title, alias and identifier. -/
theorem C1_reference_rewriter_witness :
    replace_wiki_link false [("X".data, "1".data)] "X".data =
      some ("[[".data ++ "1".data ++ "|".data ++ "X".data ++ "]]".data) ∧
    replace_wiki_link true [("X".data, "1".data)] "X".data =
      some ("[".data ++ "X".data ++ "]([[".data ++ "1".data ++ "]])".data) ∧
    replace_wiki_link false [("X".data, "1".data)] ("X".data ++ '|' :: " a ".data) =
      some ("[[".data ++ "1".data ++ "|".data ++ pyStrip " a ".data ++ "]]".data) ∧
    replace_wiki_link true [("X".data, "1".data)] ("X".data ++ '|' :: " a ".data) =
      some ("[".data ++ pyStrip " a ".data ++ "]([[".data ++ "1".data ++ "]])".data) ∧
    replace_wiki_links false [("X".data, "1".data)]
      ('[' :: '[' :: ("X".data ++ ']' :: ']' :: [])) =
      some ("[[".data ++ "1".data ++ "|".data ++ "X".data ++ "]]".data) ∧
    replace_wiki_links true [("X".data, "1".data)]
      ('[' :: '[' :: ("X".data ++ ']' :: ']' :: [])) =
      some ("[".data ++ "X".data ++ "]([[".data ++ "1".data ++ "]])".data) :=
  C1_reference_rewriter [("X".data, "1".data)] "X".data " a ".data "1".data
    (by decide) (by decide) (by decide) (by decide)

/-- C4: a plain or aliased reference (zero or one pipe) whose title is not a
map key is replaced by its own text — the callback returns the matched text
unchanged (first two conjuncts), and a single-ghost-reference body passes
through the whole rewriter byte-identically (last two conjuncts). -/
theorem C4_ghost_references (z : Bool) (m : List (List Char × List Char))
    (inner t a : List Char)
    (hpi : '|' ∉ inner) (hgi : dictLookup m inner = none)
    (hpa : '|' ∉ a) (hgt : dictLookup m t = none)
    (hsi : linkSafe inner = true) (hst : linkSafe t = true)
    (hsa : ∀ c ∈ a, c ≠ '\n' ∧ c ≠ ']' ∧ c ≠ '!') :
    replace_wiki_link z m inner = some ("[[".data ++ inner ++ "]]".data) ∧
    replace_wiki_link z m (t ++ '|' :: a) =
      some ("[[".data ++ (t ++ '|' :: a) ++ "]]".data) ∧
    replace_wiki_links z m ('[' :: '[' :: (inner ++ ']' :: ']' :: [])) =
      some ('[' :: '[' :: (inner ++ ']' :: ']' :: [])) ∧
    replace_wiki_links z m ('[' :: '[' :: ((t ++ '|' :: a) ++ ']' :: ']' :: [])) =
      some ('[' :: '[' :: ((t ++ '|' :: a) ++ ']' :: ']' :: [])) := by
  have hbang : ∀ s, linkSafe s = true → '!' ∉ s :=
    fun s hs hm => (linkSafe_props hs _ hm).2.2.2.2 rfl
  have hpt : '|' ∉ t := fun hm => (linkSafe_props hst _ hm).2.2.2.1 rfl
  have hti : ∀ c ∈ inner, c ≠ '\n' ∧ c ≠ ']' :=
    fun c hc => ⟨(linkSafe_props hsi _ hc).1, (linkSafe_props hsi _ hc).2.1⟩
  have hta : ∀ c ∈ t ++ '|' :: a, c ≠ '\n' ∧ c ≠ ']' := by
    intro c hc
    rcases List.mem_append.mp hc with h | h
    · exact ⟨(linkSafe_props hst _ h).1, (linkSafe_props hst _ h).2.1⟩
    · rcases h with _ | ⟨_, h⟩
      · exact ⟨by decide, by decide⟩
      · exact ⟨(hsa c h).1, (hsa c h).2.1⟩
  refine ⟨replace_wiki_link_ghost_plain z m inner hpi hgi,
    replace_wiki_link_ghost_aliased z m t a hpt hpa hgt, ?_, ?_⟩
  · have hres := replace_wiki_links_single z m inner _ (linkSafe_ne_nil hsi) hti
      (replace_wiki_link_ghost_plain z m inner hpi hgi) ?_
    · rw [hres]
      simp
    · intro h
      simp at h
      exact hbang inner hsi h
  · have hne : t ++ '|' :: a ≠ [] := by simp
    have hres := replace_wiki_links_single z m (t ++ '|' :: a) _ hne hta
      (replace_wiki_link_ghost_aliased z m t a hpt hpa hgt) ?_
    · rw [hres]
      simp
    · intro h
      simp at h
      rcases h with h | h
      exacts [hbang t hst h, (hsa '!' h).2.2 rfl]

/-- Witness for C4 at a concrete map and ghost references. -/
theorem C4_ghost_references_witness :
    replace_wiki_link false [("X".data, "1".data)] "Beta".data =
      some ("[[".data ++ "Beta".data ++ "]]".data) ∧
    replace_wiki_link false [("X".data, "1".data)] ("Beta".data ++ '|' :: "B".data) =
      some ("[[".data ++ ("Beta".data ++ '|' :: "B".data) ++ "]]".data) ∧
    replace_wiki_links false [("X".data, "1".data)]
      ('[' :: '[' :: ("Beta".data ++ ']' :: ']' :: [])) =
      some ('[' :: '[' :: ("Beta".data ++ ']' :: ']' :: [])) ∧
    replace_wiki_links false [("X".data, "1".data)]
      ('[' :: '[' :: (("Beta".data ++ '|' :: "B".data) ++ ']' :: ']' :: [])) =
      some ('[' :: '[' :: (("Beta".data ++ '|' :: "B".data) ++ ']' :: ']' :: [])) :=
  C4_ghost_references false [("X".data, "1".data)] "Beta".data "Beta".data "B".data
    (by decide) (by decide) (by decide) (by decide) (by decide) (by decide) (by decide)


theorem wikiScanF_step_none (n : Nat) (prev : Option Char) (c : Char) (rest : List Char)
    (hcond : (if c = '[' ∧ rest.head? = some '[' ∧ prev ≠ some '!' then
      scanInner [] rest.tail else none) = none) :
    wikiScanF (n + 1) prev (c :: rest) = wikiScanF n (some c) rest := by
  simp only [wikiScanF]
  rw [hcond]

theorem wikiScanF_step_match (n : Nat) (prev : Option Char) (c : Char)
    (rest inner rest' : List Char)
    (hcond : (if c = '[' ∧ rest.head? = some '[' ∧ prev ≠ some '!' then
      scanInner [] rest.tail else none) = some (inner, rest')) :
    wikiScanF (n + 1) prev (c :: rest) = inner :: wikiScanF n (some ']') rest' := by
  simp only [wikiScanF]
  rw [hcond]

/-- `replace_wiki_link` raises only on a link text with two or more pipes. -/
theorem replace_wiki_link_total (z : Bool) (m : List (List Char × List Char))
    (i : List Char) (h : i.count '|' ≤ 1) :
    (replace_wiki_link z m i).isSome = true := by
  simp only [replace_wiki_link]
  split
  · next hcont =>
    split
    · next hcnt =>
      exfalso
      have hmem : '|' ∈ i := by simpa using hcont
      have h1 : 0 < i.count '|' := List.count_pos_iff.mpr hmem
      omega
    · cases hd : dictLookup m (i.takeWhile fun c => !(c == '|')) with
      | none => simp [hd]
      | some id => cases z <;> simp [hd]
  · cases hd : dictLookup m i with
    | none => simp [hd]
    | some id => cases z <;> simp [hd]

/-- When every matched link text has at most one pipe, the wiki-link
substitution completes. -/
theorem subWiki_total (f : List Char → Option (List Char))
    (hf : ∀ i, i.count '|' ≤ 1 → (f i).isSome = true) :
    ∀ (fuel : Nat) (prev : Option Char) (l : List Char),
      (∀ i ∈ wikiScanF fuel prev l, i.count '|' ≤ 1) →
      (subWikiAuxF f fuel prev l).isSome = true := by
  intro fuel
  induction fuel with
  | zero => intro prev l _; rfl
  | succ n ih =>
    intro prev l h
    cases l with
    | nil => rfl
    | cons c rest =>
      cases hsc : (if c = '[' ∧ rest.head? = some '[' ∧ prev ≠ some '!' then
          scanInner [] rest.tail else none) with
      | some p =>
        obtain ⟨inner, rest'⟩ := p
        rw [wikiScanF_step_match n prev c rest inner rest' hsc] at h
        rw [subWikiAuxF_step_match f n prev c rest inner rest' hsc]
        have hinner := h inner (by simp)
        cases hfi : f inner with
        | none =>
          have hcontr := hf inner hinner
          rw [hfi] at hcontr
          simp at hcontr
        | some rep =>
          have hrest := ih (some ']') rest' (fun i hi => h i (by simp [hi]))
          cases hr : subWikiAuxF f n (some ']') rest' with
          | none => rw [hr] at hrest; simp at hrest
          | some u => rfl
      | none =>
        rw [wikiScanF_step_none n prev c rest hsc] at h
        rw [subWikiAuxF_step_none f n prev c rest hsc]
        have hrest := ih (some c) rest h
        cases hr : subWikiAuxF f n (some c) rest with
        | none => rw [hr] at hrest; simp at hrest
        | some u => rfl

/-- C8 counterexample: on the body `[[a|b|c]]` the tuple unpacking
`link_title, link_alias = link_text.split("|")` raises a `ValueError` that
escapes `replace_wiki_links` — modelled as `none` — so the Reference
Rewriter does not complete on every body. -/
theorem C8_counterexample :
    replace_wiki_links false [] "[[a|b|c]]".data = none := by decide

/-- C8 (amended): the Reference Rewriter completes without an exception
escaping provided every matched reference text contains at most one pipe;
in particular a matched title absent from the map is handled by the ghost
branch rather than raising. -/
theorem C8_rewriter_no_exception (z : Bool) (m : List (List Char × List Char))
    (content : List Char)
    (h : ∀ i ∈ wikiMatches content, i.count '|' ≤ 1) :
    ∃ result, replace_wiki_links z m content = some result := by
  have htot := subWiki_total (replace_wiki_link z m)
    (fun i hi => replace_wiki_link_total z m i hi) content.length none content h
  obtain ⟨r, hr⟩ := Option.isSome_iff_exists.mp htot
  refine ⟨imagePass r, ?_⟩
  unfold replace_wiki_links subWiki
  rw [hr]
  rfl

/-- Witness for C8: a body with an aliased link, a ghost link and an image
link completes. -/
theorem C8_rewriter_no_exception_witness :
    ∃ result, replace_wiki_links false [("X".data, "1".data)]
      "[[X|al]] [[ghost]] ![[p.png]]".data = some result :=
  C8_rewriter_no_exception false [("X".data, "1".data)]
    "[[X|al]] [[ghost]] ![[p.png]]".data (by decide)


/-!
## Supporting lemmas: the image pattern
-/

theorem isPre_head_false {a b : Char} (p s : List Char) (h : a ≠ b) :
    isPre (a :: p) (b :: s) = false := by
  show ((a == b) && _) = false
  rw [beq_eq_false_iff_ne.mpr h, Bool.false_and]

theorem imgTryA_cons (acc : List Char) (c : Char) (rest : List Char) :
    imgTryA acc (c :: rest) =
      if c = '\n' then none
      else if isPre ".jpeg]]".data rest then
        some ((c :: acc).reverse ++ ".jpeg".data, rest.drop 7)
      else if isPre ".jpg]]".data rest then
        some ((c :: acc).reverse ++ ".jpg".data, rest.drop 6)
      else imgTryA (c :: acc) rest := rfl

theorem imgTryB_cons (acc : List Char) (c : Char) (rest : List Char) :
    imgTryB acc (c :: rest) =
      if c = '\n' then none
      else if isPre ".png]]".data rest then
        some ((c :: acc).reverse ++ ".png".data, rest.drop 6)
      else imgTryB (c :: acc) rest := rfl

theorem imageNameSafe_props {s : List Char} (h : imageNameSafe s = true) :
    ∀ c ∈ s, c ≠ '\n' ∧ c ≠ ']' ∧ c ≠ '[' ∧ c ≠ '.' := by
  intro c hc
  unfold imageNameSafe at h
  rw [Bool.and_eq_true, List.all_eq_true] at h
  have h2 := h.2 c hc
  simp at h2
  exact ⟨h2.1.1.1, h2.1.1.2, h2.1.2, h2.2⟩

theorem imageNameSafe_ne_nil {s : List Char} (h : imageNameSafe s = true) : s ≠ [] := by
  unfold imageNameSafe at h
  rw [Bool.and_eq_true] at h
  simpa using h.1

/-- The first alternative fails on a `.png`-terminated group. -/
theorem imgTryA_png_fail (w : List Char) (hw : ∀ c ∈ w, c ≠ '\n' ∧ c ≠ '.') :
    ∀ acc, imgTryA acc (w ++ ".png]]".data) = none := by
  induction w with
  | nil =>
    intro acc
    simp [imgTryA_cons, imgTryA, isPre]
  | cons a w' ih =>
    intro acc
    have ha := hw a (by simp)
    rw [List.cons_append, imgTryA_cons, if_neg ha.1, if_neg ?h1, if_neg ?h2]
    · exact ih (fun c hc => hw c (by simp [hc])) (a :: acc)
    case h1 =>
      cases w' with
      | nil => decide
      | cons d w'' =>
        rw [List.cons_append, isPre_head_false _ _
          (fun e => (hw d (by simp)).2 e.symm)]
        simp
    case h2 =>
      cases w' with
      | nil => decide
      | cons d w'' =>
        rw [List.cons_append, isPre_head_false _ _
          (fun e => (hw d (by simp)).2 e.symm)]
        simp

/-- The second alternative finds exactly the `.png`-terminated group. -/
theorem imgTryB_png (w : List Char) (hne : w ≠ []) (hw : ∀ c ∈ w, c ≠ '\n' ∧ c ≠ '.') :
    ∀ acc, imgTryB acc (w ++ ".png]]".data) = some (acc.reverse ++ w ++ ".png".data, []) := by
  induction w with
  | nil => exact absurd rfl hne
  | cons a w' ih =>
    intro acc
    have ha := hw a (by simp)
    rw [List.cons_append, imgTryB_cons, if_neg ha.1]
    cases w' with
    | nil =>
      rw [if_pos (by decide)]
      simp
    | cons d w'' =>
      rw [if_neg ?hd]
      · have := ih (by simp) (fun c hc => hw c (by simp [hc])) (a :: acc)
        rw [this]
        simp
      case hd =>
        rw [List.cons_append, isPre_head_false _ _
          (fun e => (hw d (by simp)).2 e.symm)]
        simp

/-- The first alternative finds exactly the `.jpg`-terminated group. -/
theorem imgTryA_jpg (w : List Char) (hne : w ≠ []) (hw : ∀ c ∈ w, c ≠ '\n' ∧ c ≠ '.') :
    ∀ acc, imgTryA acc (w ++ ".jpg]]".data) = some (acc.reverse ++ w ++ ".jpg".data, []) := by
  induction w with
  | nil => exact absurd rfl hne
  | cons a w' ih =>
    intro acc
    have ha := hw a (by simp)
    rw [List.cons_append, imgTryA_cons, if_neg ha.1]
    cases w' with
    | nil =>
      rw [if_neg (by decide), if_pos (by decide)]
      simp
    | cons d w'' =>
      rw [if_neg ?ha1, if_neg ?ha2]
      · have := ih (by simp) (fun c hc => hw c (by simp [hc])) (a :: acc)
        rw [this]
        simp
      case ha1 =>
        rw [List.cons_append, isPre_head_false _ _
          (fun e => (hw d (by simp)).2 e.symm)]
        simp
      case ha2 =>
        rw [List.cons_append, isPre_head_false _ _
          (fun e => (hw d (by simp)).2 e.symm)]
        simp

/-- The first alternative finds exactly the `.jpeg`-terminated group. -/
theorem imgTryA_jpeg (w : List Char) (hne : w ≠ []) (hw : ∀ c ∈ w, c ≠ '\n' ∧ c ≠ '.') :
    ∀ acc, imgTryA acc (w ++ ".jpeg]]".data) =
      some (acc.reverse ++ w ++ ".jpeg".data, []) := by
  induction w with
  | nil => exact absurd rfl hne
  | cons a w' ih =>
    intro acc
    have ha := hw a (by simp)
    rw [List.cons_append, imgTryA_cons, if_neg ha.1]
    cases w' with
    | nil =>
      rw [if_pos (by decide)]
      simp
    | cons d w'' =>
      rw [if_neg ?hb1, if_neg ?hb2]
      · have := ih (by simp) (fun c hc => hw c (by simp [hc])) (a :: acc)
        rw [this]
        simp
      case hb1 =>
        rw [List.cons_append, isPre_head_false _ _
          (fun e => (hw d (by simp)).2 e.symm)]
        simp
      case hb2 =>
        rw [List.cons_append, isPre_head_false _ _
          (fun e => (hw d (by simp)).2 e.symm)]
        simp

theorem imageScanF_nil (n : Nat) : imageScanF n [] = [] := by cases n <;> rfl

theorem replaceAllF_nil (fuel : Nat) (pat rep : List Char) :
    replaceAllF fuel [] pat rep = [] := by cases fuel <;> rfl

theorem replaceAll_self (s rep : List Char) (hne : s ≠ []) :
    replaceAll s s rep = rep := by
  cases s with
  | nil => exact absurd rfl hne
  | cons c s' =>
    show replaceAllF (s'.length + 1) (c :: s') (c :: s') rep = rep
    have hpre : isPre (c :: s') (c :: s') = true := by
      have h := isPre_append (c :: s') []
      rwa [List.append_nil] at h
    show (if !(c :: s').isEmpty && isPre (c :: s') (c :: s') then
        rep ++ replaceAllF s'.length ((c :: s').drop (c :: s').length) (c :: s') rep
      else c :: replaceAllF s'.length s' (c :: s') rep) = rep
    rw [hpre]
    simp only [List.isEmpty_cons, Bool.not_false, Bool.and_true, Bool.and_self, if_true]
    rw [List.drop_length, replaceAllF_nil, List.append_nil]

theorem imageScanF_step_match (n : Nat) (c : Char) (rest g rest' : List Char)
    (hcond : (if c = '!' ∧ rest.head? = some '[' ∧ rest.tail.head? = some '[' then
      imgTry rest.tail.tail else none) = some (g, rest')) :
    imageScanF (n + 1) (c :: rest) =
      ("![[".data ++ g ++ "]]".data, g) :: imageScanF n rest' := by
  simp only [imageScanF]
  rw [hcond]

/-- The wiki-link pass leaves a blocked image reference unchanged. -/
theorem subWiki_image_unchanged (f : List Char → Option (List Char)) (r : List Char)
    (hr : hasSub "[[".data r = false) (hhead : r.head? ≠ some '[') :
    subWiki f ('!' :: '[' :: '[' :: r) = some ('!' :: '[' :: '[' :: r) := by
  unfold subWiki
  rw [show ('!' :: '[' :: '[' :: r).length = (r.length + 2) + 1 from by simp]
  rw [subWikiAuxF_step_none f _ _ _ _
    (if_neg (by rintro ⟨h, -, -⟩; exact absurd h (by decide)))]
  rw [show r.length + 2 = (r.length + 1) + 1 from rfl]
  rw [subWikiAuxF_step_none f _ _ _ _ (if_neg (by rintro ⟨-, -, h⟩; exact h rfl))]
  rw [subWikiAuxF_step_none f _ _ _ _ (if_neg (by rintro ⟨-, h, -⟩; exact hhead h))]
  rw [subWikiAuxF_no_ll f _ _ _ hr]
  rfl


/-- Common core of the image rewrite: a single image reference whose group
the image pattern matches exactly is rewritten to `![](group)`, for any map
and either output convention. -/
theorem image_rewrite_of_imgTry (z : Bool) (m : List (List Char × List Char))
    (name ext : List Char) (hsafe : imageNameSafe name = true) (hbr : '[' ∉ ext)
    (htry : imgTry (name ++ '.' :: (ext ++ "]]".data)) = some (name ++ '.' :: ext, [])) :
    replace_wiki_links z m ('!' :: '[' :: '[' :: (name ++ '.' :: (ext ++ "]]".data))) =
      some ("![](".data ++ (name ++ '.' :: ext) ++ ")".data) := by
  have hprops := imageNameSafe_props hsafe
  have hne := imageNameSafe_ne_nil hsafe
  have hnomem : '[' ∉ name ++ '.' :: (ext ++ "]]".data) := by
    intro h
    rcases List.mem_append.mp h with h | h
    · exact (hprops _ h).2.2.1 rfl
    · rcases List.mem_cons.mp h with h | h
      · exact absurd h (by decide)
      · rcases List.mem_append.mp h with h | h
        · exact hbr h
        · simp at h
  have hsub : hasSub "[[".data (name ++ '.' :: (ext ++ "]]".data)) = false := by
    rw [show "[[".data = '[' :: "[".data from rfl]
    exact hasSub_false_of_head_notin '[' _ _ hnomem
  obtain ⟨a, nm, rfl⟩ : ∃ a nm, name = a :: nm := by
    cases name with
    | nil => exact absurd rfl hne
    | cons a nm => exact ⟨a, nm, rfl⟩
  have hhead : ((a :: nm) ++ '.' :: (ext ++ "]]".data)).head? ≠ some '[' := by
    simp only [List.cons_append, List.head?_cons, ne_eq, Option.some.injEq]
    exact fun e => (hprops a (by simp)).2.2.1 e
  unfold replace_wiki_links
  rw [subWiki_image_unchanged (replace_wiki_link z m) _ hsub hhead]
  show some (imagePass ('!' :: '[' :: '[' :: ((a :: nm) ++ '.' :: (ext ++ "]]".data)))) = _
  unfold imagePass
  rw [show ('!' :: '[' :: '[' :: ((a :: nm) ++ '.' :: (ext ++ "]]".data))).length =
    (('[' :: '[' :: ((a :: nm) ++ '.' :: (ext ++ "]]".data))).length) + 1 from by simp]
  rw [imageScanF_step_match _ _ _ (a :: nm ++ '.' :: ext) []
    (by rw [if_pos ⟨rfl, rfl, rfl⟩]; exact htry)]
  rw [imageScanF_nil]
  show some (replaceAll ('!' :: '[' :: '[' :: ((a :: nm) ++ '.' :: (ext ++ "]]".data)))
    ("![[".data ++ (a :: nm ++ '.' :: ext) ++ "]]".data)
    ("![](".data ++ (a :: nm ++ '.' :: ext) ++ ")".data)) = _
  rw [show '!' :: '[' :: '[' :: ((a :: nm) ++ '.' :: (ext ++ "]]".data)) =
    "![[".data ++ (a :: nm ++ '.' :: ext) ++ "]]".data from by simp]
  rw [replaceAll_self _ _ (by simp)]

/-- C5 counterexample: `![[photo.PNG]]` (upper-case extension) is left
unchanged — the image pattern has no `re.IGNORECASE` flag — so the claimed
case-insensitive rewrite does not happen. -/
theorem C5_counterexample :
    replace_wiki_links false [] "![[photo.PNG]]".data = some "![[photo.PNG]]".data ∧
    replace_wiki_links false [] "![[photo.PNG]]".data ≠ some "![](photo.PNG)".data := by
  decide

/-- C5 (amended): an image-embed reference `![[name.ext]]` whose extension
is exactly `jpg`, `jpeg` or `png` in lower case is rewritten to
`![](name.ext)`, for every map and either output convention (the name must
not contain newlines, brackets or further dots). -/
theorem C5_image_rewrite (z : Bool) (m : List (List Char × List Char))
    (name ext : List Char) (hsafe : imageNameSafe name = true)
    (hext : ext = "jpg".data ∨ ext = "jpeg".data ∨ ext = "png".data) :
    replace_wiki_links z m ('!' :: '[' :: '[' :: (name ++ '.' :: (ext ++ "]]".data))) =
      some ("![](".data ++ (name ++ '.' :: ext) ++ ")".data) := by
  have hne := imageNameSafe_ne_nil hsafe
  have hw : ∀ c ∈ name, c ≠ '\n' ∧ c ≠ '.' := by
    intro c hc
    have h := imageNameSafe_props hsafe c hc
    exact ⟨h.1, h.2.2.2⟩
  rcases hext with he | he | he <;> subst he
  · refine image_rewrite_of_imgTry z m name _ hsafe (by decide) ?_
    show imgTry (name ++ ".jpg]]".data) = some (name ++ ".jpg".data, [])
    unfold imgTry
    rw [imgTryA_jpg name hne hw []]
    simp
  · refine image_rewrite_of_imgTry z m name _ hsafe (by decide) ?_
    show imgTry (name ++ ".jpeg]]".data) = some (name ++ ".jpeg".data, [])
    unfold imgTry
    rw [imgTryA_jpeg name hne hw []]
    simp
  · refine image_rewrite_of_imgTry z m name _ hsafe (by decide) ?_
    show imgTry (name ++ ".png]]".data) = some (name ++ ".png".data, [])
    unfold imgTry
    rw [imgTryA_png_fail name hw []]
    show imgTryB [] (name ++ ".png]]".data) = some (name ++ ".png".data, [])
    rw [imgTryB_png name hne hw []]
    simp

/-- Witness for C5 at a concrete image reference. -/
theorem C5_image_rewrite_witness :
    replace_wiki_links false [("X".data, "1".data)]
      ('!' :: '[' :: '[' :: ("photo".data ++ '.' :: ("png".data ++ "]]".data))) =
      some ("![](".data ++ ("photo".data ++ '.' :: "png".data) ++ ")".data) :=
  C5_image_rewrite false [("X".data, "1".data)] "photo".data "png".data
    (by decide) (Or.inr (Or.inr rfl))


theorem notin_cons {c a : Char} {l : List Char} (h1 : c ≠ a) (h2 : c ∉ l) :
    c ∉ a :: l := by simp [h1, h2]

theorem notin_append {c : Char} {l1 l2 : List Char} (h1 : c ∉ l1) (h2 : c ∉ l2) :
    c ∉ l1 ++ l2 := by simp [h1, h2]

theorem getLast?_cons_some (b : Char) (w : List Char) :
    ∃ x, (b :: w).getLast? = some x := by
  induction w generalizing b with
  | nil => exact ⟨b, rfl⟩
  | cons c w' ih =>
    rw [List.getLast?_cons_cons]
    exact ih c

/-- The wiki-link scan walks through a bracket-free prefix unchanged, the
look-behind character becoming the last character of the prefix. -/
theorem subWikiAuxF_skip (f : List Char → Option (List Char)) :
    ∀ (w : List Char), '[' ∉ w →
      ∀ (n : Nat) (prev prev2 : Option Char) (post : List Char),
        (match w.getLast? with | some a => some a | none => prev) = prev2 →
        subWikiAuxF f (w.length + n) prev (w ++ post) =
          (subWikiAuxF f n prev2 post).map (fun t => w ++ t) := by
  intro w
  induction w with
  | nil =>
    intro _ n prev prev2 post hp
    have hp2 : prev = prev2 := hp
    subst hp2
    rw [List.nil_append, show ([] : List Char).length + n = n from by simp]
    cases subWikiAuxF f n prev post <;> rfl
  | cons a w2 ih =>
    intro hw n prev prev2 post hp
    have ha : a ≠ '[' := fun e => hw (by simp [e])
    rw [show (a :: w2).length + n = (w2.length + n) + 1 from by
      rw [List.length_cons]; omega]
    rw [List.cons_append,
      subWikiAuxF_step_none f (w2.length + n) prev a (w2 ++ post)
        (if_neg (fun hc => ha hc.1))]
    have hp2 : (match w2.getLast? with | some x => some x | none => some a) = prev2 := by
      cases w2 with
      | nil => exact hp
      | cons b w3 =>
        obtain ⟨x, hx⟩ := getLast?_cons_some b w3
        rw [hx]
        rw [List.getLast?_cons_cons, hx] at hp
        exact hp
    rw [ih (fun hm => hw (by simp [hm])) n (some a) prev2 post hp2, Option.map_map]
    rfl

theorem imageScanF_step_none (n : Nat) (c : Char) (rest : List Char)
    (hcond : (if c = '!' ∧ rest.head? = some '[' ∧ rest.tail.head? = some '[' then
      imgTry rest.tail.tail else none) = none) :
    imageScanF (n + 1) (c :: rest) = imageScanF n rest := by
  simp only [imageScanF]
  rw [hcond]

/-- C6 counterexample: with the map X maps-to B, B maps-to C, one rewriter
pass turns `[[X]]` into `[[B|X]]`, but a second pass rewrites that again to
`[[C|X]]` because the inserted identifier B is itself a key of the map; the
rewriter is therefore not idempotent on its own output. -/
theorem C6_counterexample :
    replace_wiki_links false [("X".data, "B".data), ("B".data, "C".data)]
      "[[X]]".data = some "[[B|X]]".data ∧
    replace_wiki_links false [("X".data, "B".data), ("B".data, "C".data)]
      "[[B|X]]".data = some "[[C|X]]".data ∧
    some "[[C|X]]".data ≠ some "[[B|X]]".data := by
  decide

/-- C6 (amended): a second run leaves converted output unchanged provided
the inserted identifier is not itself a key of the map: an already-converted
`[[id|label]]` body, an alternate-convention `[label]([[id]])` body, and a
converted image link `![](name.ext)` all pass through a further run
unchanged. -/
theorem C6_rewriter_idempotent (z : Bool) (m : List (List Char × List Char))
    (id lab name ext : List Char)
    (hid : linkSafe id = true) (hlab : linkSafe lab = true)
    (hname : linkSafe name = true) (hext : linkSafe ext = true)
    (hghost : dictLookup m id = none) :
    replace_wiki_links z m ("[[".data ++ id ++ "|".data ++ lab ++ "]]".data) =
      some ("[[".data ++ id ++ "|".data ++ lab ++ "]]".data) ∧
    replace_wiki_links z m
        ("[".data ++ lab ++ "](".data ++ "[[".data ++ id ++ "]])".data) =
      some ("[".data ++ lab ++ "](".data ++ "[[".data ++ id ++ "]])".data) ∧
    replace_wiki_links z m ("![](".data ++ name ++ ".".data ++ ext ++ ")".data) =
      some ("![](".data ++ name ++ ".".data ++ ext ++ ")".data) := by
  have hpropsI := linkSafe_props hid
  have hpropsL := linkSafe_props hlab
  have hbI : '!' ∉ id := fun h => (hpropsI _ h).2.2.2.2 rfl
  have hbL : '!' ∉ lab := fun h => (hpropsL _ h).2.2.2.2 rfl
  refine ⟨?_, ?_, ?_⟩
  · rw [show "[[".data ++ id ++ "|".data ++ lab ++ "]]".data =
      '[' :: '[' :: ((id ++ '|' :: lab) ++ ']' :: ']' :: ([] : List Char)) from by simp]
    apply replace_wiki_links_single z m (id ++ '|' :: lab) _ (by simp)
    · intro c hc
      rcases List.mem_append.mp hc with h | h
      · exact ⟨(hpropsI _ h).1, (hpropsI _ h).2.1⟩
      · rcases List.mem_cons.mp h with h | h
        · exact ⟨by simp [h], by simp [h]⟩
        · exact ⟨(hpropsL _ h).1, (hpropsL _ h).2.1⟩
    · exact replace_wiki_link_ghost_aliased z m id lab
        (fun h => (hpropsI _ h).2.2.2.1 rfl) (fun h => (hpropsL _ h).2.2.2.1 rfl) hghost
    · exact notin_cons (by decide) (notin_cons (by decide)
        (notin_append (notin_append hbI (notin_cons (by decide) hbL)) (by decide)))
  · obtain ⟨a, lab2, rfl⟩ : ∃ a lab2, lab = a :: lab2 := by
      cases lab with
      | nil => exact absurd rfl (linkSafe_ne_nil hlab)
      | cons a lab2 => exact ⟨a, lab2, rfl⟩
    have halb : a ≠ '[' := (hpropsL a (by simp)).2.2.1
    have hwnb : '[' ∉ (a :: lab2) ++ [']', '('] :=
      notin_append (fun h => (hpropsL _ h).2.2.1 rfl) (by decide)
    rw [show "[".data ++ (a :: lab2) ++ "](".data ++ "[[".data ++ id ++ "]])".data =
      '[' :: (((a :: lab2) ++ [']', '(']) ++
        ('[' :: '[' :: (id ++ ']' :: ']' :: [')']))) from by simp]
    unfold replace_wiki_links subWiki
    rw [show ('[' :: (((a :: lab2) ++ [']', '(']) ++
        ('[' :: '[' :: (id ++ ']' :: ']' :: [')'])))).length =
      (((a :: lab2) ++ [']', '(']).length + (id.length + 5)) + 1 from by
        simp [List.length_append]; omega]
    rw [subWikiAuxF_step_none _ _ _ _ _ (if_neg (fun hc => by
      have h2 := hc.2.1
      simp only [List.cons_append, List.head?_cons, Option.some.injEq] at h2
      exact halb h2))]
    have hlast : ((a :: lab2) ++ [']', '(']).getLast? = some '(' := by
      rw [show (a :: lab2) ++ [']', '('] = ((a :: lab2) ++ [']']) ++ ['('] from by simp]
      exact List.getLast?_concat _
    rw [subWikiAuxF_skip _ _ hwnb (id.length + 5) (some '[') (some '(')
      ('[' :: '[' :: (id ++ ']' :: ']' :: [')'])) (by rw [hlast])]
    rw [show (id.length + 5) = (id.length + 4) + 1 from rfl]
    rw [subWiki_link_step _ _ _ _ _ (by decide) (linkSafe_ne_nil hid)
      (fun c hc => ⟨(hpropsI _ hc).1, (hpropsI _ hc).2.1⟩) (by decide)]
    rw [replace_wiki_link_ghost_plain z m id (fun h => (hpropsI _ h).2.2.2.1 rfl) hghost]
    rw [subWikiAuxF_no_ll _ (id.length + 4) (some ']') [')'] (by decide)]
    simp only [Option.map_some']
    rw [show ((a :: lab2) ++ [']', '(']) ++
        (("[[".data ++ id ++ "]]".data) ++ [')']) =
      ((a :: lab2) ++ [']', '(']) ++
        ('[' :: '[' :: (id ++ ']' :: ']' :: [')'])) from by simp]
    rw [imagePass_no_bang (by
      rw [show "![[".data = '!' :: "[[".data from rfl]
      exact hasSub_false_of_head_notin '!' _ _ (notin_cons (by decide)
        (notin_append (notin_append hbL (by decide))
          (notin_cons (by decide) (notin_cons (by decide)
            (notin_append hbI (by decide)))))))]
  · have hpropsN := linkSafe_props hname
    have hpropsE := linkSafe_props hext
    have hbN : '!' ∉ name := fun h => (hpropsN _ h).2.2.2.2 rfl
    have hbE : '!' ∉ ext := fun h => (hpropsE _ h).2.2.2.2 rfl
    have hWnb : '[' ∉ name ++ '.' :: ext :=
      notin_append (fun h => (hpropsN _ h).2.2.1 rfl)
        (notin_cons (by decide) (fun h => (hpropsE _ h).2.2.1 rfl))
    have hrestnb : '!' ∉ '[' :: ']' :: '(' :: ((name ++ '.' :: ext) ++ [')']) :=
      notin_cons (by decide) (notin_cons (by decide) (notin_cons (by decide)
        (notin_append (notin_append hbN (notin_cons (by decide) hbE)) (by decide))))
    rw [show "![](".data ++ name ++ ".".data ++ ext ++ ")".data =
      '!' :: '[' :: ']' :: '(' :: ((name ++ '.' :: ext) ++ [')']) from by simp]
    unfold replace_wiki_links subWiki
    rw [show ('!' :: '[' :: ']' :: '(' ::
        ((name ++ '.' :: ext) ++ [')'])).length =
      ((((((name ++ '.' :: ext).length + 1) + 1) + 1) + 1) + 1) from by
        simp [List.length_append]; omega]
    rw [subWikiAuxF_step_none _ _ _ _ _ (if_neg (fun hc => absurd hc.1 (by decide)))]
    rw [subWikiAuxF_step_none _ _ _ _ _ (if_neg (fun hc => by
      have h2 := hc.2.1
      simp only [List.head?_cons, Option.some.injEq] at h2
      exact absurd h2 (by decide)))]
    rw [subWikiAuxF_step_none _ _ _ _ _ (if_neg (fun hc => absurd hc.1 (by decide)))]
    rw [subWikiAuxF_step_none _ _ _ _ _ (if_neg (fun hc => absurd hc.1 (by decide)))]
    rw [subWikiAuxF_skip _ _ hWnb 1 (some '(') _ [')'] rfl]
    rw [subWikiAuxF_no_ll _ 1 _ [')'] (by decide)]
    simp only [Option.map_some']
    show some (imagePass ('!' :: '[' :: ']' :: '(' :: ((name ++ '.' :: ext) ++ [')']))) = _
    unfold imagePass
    rw [show ('!' :: '[' :: ']' :: '(' ::
        ((name ++ '.' :: ext) ++ [')'])).length =
      ((((((name ++ '.' :: ext).length + 1) + 1) + 1) + 1) + 1) from by
        simp [List.length_append]; omega]
    rw [imageScanF_step_none _ _ _ (if_neg (fun hc => by
      have h2 := hc.2.2
      simp only [List.tail_cons, List.head?_cons, Option.some.injEq] at h2
      exact absurd h2 (by decide)))]
    rw [imageScanF_no_bang _ _ (by
      rw [show "![[".data = '!' :: "[[".data from rfl]
      exact hasSub_false_of_head_notin '!' _ _ hrestnb)]
    rfl

/-- Witness for C6: the amended idempotence theorem at a concrete converted
body and map. -/
theorem C6_rewriter_idempotent_witness :
    replace_wiki_links false [("Q".data, "7".data)]
      ("[[".data ++ "5".data ++ "|".data ++ "L".data ++ "]]".data) =
      some ("[[".data ++ "5".data ++ "|".data ++ "L".data ++ "]]".data) ∧
    replace_wiki_links false [("Q".data, "7".data)]
        ("[".data ++ "L".data ++ "](".data ++ "[[".data ++ "5".data ++ "]])".data) =
      some ("[".data ++ "L".data ++ "](".data ++ "[[".data ++ "5".data ++ "]])".data) ∧
    replace_wiki_links false [("Q".data, "7".data)]
        ("![](".data ++ "img".data ++ ".".data ++ "png".data ++ ")".data) =
      some ("![](".data ++ "img".data ++ ".".data ++ "png".data ++ ")".data) :=
  C6_rewriter_idempotent false [("Q".data, "7".data)] "5".data "L".data
    "img".data "png".data (by decide) (by decide) (by decide) (by decide) (by decide)

theorem dropWhile_head_false :
    ∀ {l : List Char} {c : Char} {r : List Char},
      l.dropWhile pySpace = c :: r → pySpace c = false := by
  intro l
  induction l with
  | nil => intro c r h; simp at h
  | cons a t ih =>
    intro c r h
    rw [List.dropWhile_cons] at h
    by_cases ha : pySpace a = true
    · rw [if_pos ha] at h
      exact ih h
    · rw [if_neg ha] at h
      cases h
      simpa using ha

theorem dropWhile_pySpace_idem (l : List Char) :
    (l.dropWhile pySpace).dropWhile pySpace = l.dropWhile pySpace := by
  cases h : l.dropWhile pySpace with
  | nil => rfl
  | cons c r => rw [List.dropWhile_cons, if_neg (by simp [dropWhile_head_false h])]

theorem pyStripRight_cons (c : Char) (r : List Char) :
    pyStripRight (c :: r) =
      if pyStripRight r = [] then (if pySpace c then [] else [c])
      else c :: pyStripRight r := by
  by_cases hr : pyStripRight r = []
  · have hnil : r.reverse.dropWhile pySpace = [] := by
      rw [← List.reverse_eq_nil_iff]
      exact hr
    rw [if_pos hr]
    unfold pyStripRight
    rw [List.reverse_cons, List.dropWhile_append, if_pos (by rw [hnil]; rfl)]
    by_cases hc : pySpace c = true
    · simp [List.dropWhile_cons, hc]
    · simp [List.dropWhile_cons, hc]
  · have hne : r.reverse.dropWhile pySpace ≠ [] := by
      intro h0
      exact hr (by unfold pyStripRight; rw [h0]; rfl)
    rw [if_neg hr]
    unfold pyStripRight
    rw [List.reverse_cons, List.dropWhile_append,
      if_neg (by simpa [List.isEmpty_iff] using hne), List.reverse_append]
    rfl

theorem pyStripRight_idem (x : List Char) :
    pyStripRight (pyStripRight x) = pyStripRight x := by
  induction x with
  | nil => rfl
  | cons c r ih =>
    rw [pyStripRight_cons]
    by_cases h : pyStripRight r = []
    · rw [if_pos h]
      by_cases hc : pySpace c = true
      · rw [if_pos hc]; rfl
      · rw [if_neg hc, pyStripRight_cons]
        rw [show pyStripRight ([] : List Char) = [] from rfl, if_pos rfl, if_neg hc]
    · rw [if_neg h, pyStripRight_cons, ih, if_neg h]

theorem pyStripRight_head (c : Char) (r : List Char) :
    pyStripRight (c :: r) = [] ∨ (pyStripRight (c :: r)).head? = some c := by
  rw [pyStripRight_cons]
  by_cases h : pyStripRight r = []
  · rw [if_pos h]
    by_cases hc : pySpace c = true
    · rw [if_pos hc]; exact Or.inl rfl
    · rw [if_neg hc]; exact Or.inr rfl
  · rw [if_neg h]; exact Or.inr rfl

theorem pyStripLeft_of_stripRight_left (x : List Char) :
    pyStripLeft (pyStripRight (pyStripLeft x)) = pyStripRight (pyStripLeft x) := by
  cases hy : pyStripLeft x with
  | nil => rfl
  | cons c r =>
    have hc : pySpace c = false := dropWhile_head_false hy
    rcases pyStripRight_head c r with h | h
    · rw [h]; rfl
    · cases hz : pyStripRight (c :: r) with
      | nil => rfl
      | cons d t =>
        rw [hz] at h
        simp only [List.head?_cons, Option.some.injEq] at h
        subst h
        unfold pyStripLeft
        rw [List.dropWhile_cons, if_neg (by simp [hc])]

theorem pyStrip_idem (x : List Char) : pyStrip (pyStrip x) = pyStrip x := by
  show pyStripRight (pyStripLeft (pyStripRight (pyStripLeft x))) = _
  rw [pyStripLeft_of_stripRight_left, pyStripRight_idem]
  rfl

theorem pyStrip_head_false {x : List Char} {c : Char}
    (h : (pyStrip x).head? = some c) : pySpace c = false := by
  unfold pyStrip at h
  cases hy : pyStripLeft x with
  | nil =>
    rw [hy] at h
    simp [pyStripRight] at h
  | cons a r =>
    rw [hy] at h
    rcases pyStripRight_head a r with h2 | h2
    · rw [h2] at h; simp at h
    · rw [h2] at h
      cases h
      exact dropWhile_head_false hy

theorem pyStrip_getLast_false {x : List Char} {c : Char}
    (h : (pyStrip x).getLast? = some c) : pySpace c = false := by
  unfold pyStrip pyStripRight at h
  rw [List.getLast?_reverse] at h
  cases hz : (pyStripLeft x).reverse.dropWhile pySpace with
  | nil => rw [hz] at h; simp at h
  | cons d t =>
    rw [hz] at h
    simp only [List.head?_cons, Option.some.injEq] at h
    subst h
    exact dropWhile_head_false hz

theorem pyLower_AZ {c : Char} (h : 'A' ≤ c ∧ c ≤ 'Z') :
    pyLower c = Char.ofNat (c.toNat + 32) ∧
      (Char.ofNat (c.toNat + 32)).toNat = c.toNat + 32 := by
  have h2 : c.toNat ≤ 90 := by
    have := h.2
    rw [Char.le_def] at this
    exact this
  have hv : (c.toNat + 32).isValidChar := Or.inl (by omega)
  constructor
  · unfold pyLower
    rw [if_pos h]
  · rw [Char.ofNat, dif_pos hv]
    rfl

theorem toNat_AZ {c : Char} (h : 'A' ≤ c ∧ c ≤ 'Z') :
    65 ≤ c.toNat ∧ c.toNat ≤ 90 := by
  constructor
  · have := h.1
    rw [Char.le_def] at this
    exact this
  · have := h.2
    rw [Char.le_def] at this
    exact this

theorem pySpace_of_toNat_ge {x : Char} (hx : 97 ≤ x.toNat) :
    pySpace x = false := by
  have hne : ∀ (y : Char), y.toNat < 97 → ¬(x = y) := by
    intro y hy he
    rw [he] at hx
    omega
  unfold pySpace
  simp only [Bool.or_eq_false_iff, beq_eq_false_iff_ne, ne_eq]
  exact ⟨⟨⟨⟨⟨hne ' ' (by decide), hne (Char.ofNat 9) (by decide)⟩,
    hne (Char.ofNat 10) (by decide)⟩, hne (Char.ofNat 13) (by decide)⟩,
    hne (Char.ofNat 11) (by decide)⟩, hne (Char.ofNat 12) (by decide)⟩

theorem pyLower_idem (c : Char) : pyLower (pyLower c) = pyLower c := by
  by_cases h : 'A' ≤ c ∧ c ≤ 'Z'
  · obtain ⟨he, ht⟩ := pyLower_AZ h
    obtain ⟨h65, h90⟩ := toNat_AZ h
    rw [he]
    unfold pyLower
    rw [if_neg (fun hcon => by
      obtain ⟨_, hc90⟩ := toNat_AZ hcon
      rw [ht] at hc90
      omega)]
  · have e : pyLower c = c := by
      unfold pyLower
      rw [if_neg h]
    rw [e, e]

theorem pySpace_pyLower {c : Char} (h : pySpace c = false) :
    pySpace (pyLower c) = false := by
  by_cases hc : 'A' ≤ c ∧ c ≤ 'Z'
  · obtain ⟨he, ht⟩ := pyLower_AZ hc
    obtain ⟨h65, _⟩ := toNat_AZ hc
    rw [he]
    exact pySpace_of_toNat_ge (by omega)
  · have e : pyLower c = c := by
      unfold pyLower
      rw [if_neg hc]
    rw [e]
    exact h

theorem pySpace_underscore_lower {c : Char} (h : pySpace c = false) :
    pySpace (if pyLower c = ' ' then '_' else pyLower c) = false := by
  by_cases hd : pyLower c = ' '
  · rw [if_pos hd]
    decide
  · rw [if_neg hd]
    exact pySpace_pyLower h

theorem ulow_idem (c : Char) :
    (if pyLower (if pyLower c = ' ' then '_' else pyLower c) = ' ' then '_'
     else pyLower (if pyLower c = ' ' then '_' else pyLower c)) =
    (if pyLower c = ' ' then '_' else pyLower c) := by
  by_cases hd : pyLower c = ' '
  · rw [if_pos hd, show pyLower '_' = '_' from by decide, if_neg (by decide)]
  · rw [if_neg hd, pyLower_idem, if_neg hd]

theorem pyStrip_eq_self_of_ends {l : List Char}
    (h1 : ∀ c, l.head? = some c → pySpace c = false)
    (h2 : ∀ c, l.getLast? = some c → pySpace c = false) :
    pyStrip l = l := by
  have hL : pyStripLeft l = l := by
    cases l with
    | nil => rfl
    | cons c r =>
      unfold pyStripLeft
      rw [List.dropWhile_cons, if_neg (by simp [h1 c rfl])]
  have hR : l.reverse.dropWhile pySpace = l.reverse := by
    cases hr : l.reverse with
    | nil => rfl
    | cons c r =>
      have hc : pySpace c = false := by
        apply h2
        rw [← List.head?_reverse, hr]
        rfl
      rw [List.dropWhile_cons, if_neg (by simp [hc])]
  unfold pyStrip pyStripRight
  rw [hL, hR, List.reverse_reverse]

theorem normalize_key_idem (k : List Char) :
    normalize_key (normalize_key k) = normalize_key k := by
  have hstrip : pyStrip (normalize_key k) = normalize_key k := by
    apply pyStrip_eq_self_of_ends
    · intro c hc
      unfold normalize_key at hc
      rw [List.head?_map, List.head?_map] at hc
      cases hh : (pyStrip k).head? with
      | none => rw [hh] at hc; simp at hc
      | some c0 =>
        rw [hh] at hc
        simp only [Option.map_some', Option.some.injEq] at hc
        rw [← hc]
        exact pySpace_underscore_lower (pyStrip_head_false hh)
    · intro c hc
      unfold normalize_key at hc
      rw [List.getLast?_map, List.getLast?_map] at hc
      cases hh : (pyStrip k).getLast? with
      | none => rw [hh] at hc; simp at hc
      | some c0 =>
        rw [hh] at hc
        simp only [Option.map_some', Option.some.injEq] at hc
        rw [← hc]
        exact pySpace_underscore_lower (pyStrip_getLast_false hh)
  rw [show normalize_key (normalize_key k) =
    ((pyStrip (normalize_key k)).map pyLower).map
      (fun c => if c = ' ' then '_' else c) from rfl]
  rw [hstrip]
  unfold normalize_key
  simp only [List.map_map]
  apply List.map_congr_left
  intro a _
  simp only [Function.comp]
  exact ulow_idem a

theorem dictInsertY_keys (m : List (List Char × YVal)) (k : List Char) (v : YVal) :
    (dictInsertY m k v).map Prod.fst =
      if m.any (fun p => decide (p.1 = k)) then m.map Prod.fst
      else m.map Prod.fst ++ [k] := by
  unfold dictInsertY
  by_cases h : m.any (fun p => decide (p.1 = k)) = true
  · rw [if_pos h, if_pos h, List.map_map]
    apply List.map_congr_left
    intro p _
    simp only [Function.comp]
    by_cases he : p.1 = k
    · rw [if_pos he]
      exact he.symm
    · rw [if_neg he]
  · rw [if_neg h, if_neg h, List.map_append]
    rfl

theorem entries_nodup :
    ∀ (m acc : List (List Char × YVal)),
      ((acc.map Prod.fst).Nodup) →
      ((normalizeEntries m acc).map Prod.fst).Nodup := by
  intro m
  induction m with
  | nil =>
    intro acc hacc
    simpa [normalizeEntries] using hacc
  | cons p rest ih =>
    intro acc hacc
    obtain ⟨k, v⟩ := p
    simp only [normalizeEntries]
    apply ih
    rw [dictInsertY_keys]
    by_cases h : acc.any (fun q => decide (q.1 = normalize_key k)) = true
    · rw [if_pos h]
      exact hacc
    · rw [if_neg h]
      have hnotmem : normalize_key k ∉ acc.map Prod.fst := by
        intro hm
        obtain ⟨q, hq, he⟩ := List.mem_map.mp hm
        exact h (List.any_eq_true.mpr ⟨q, hq, by simp [he]⟩)
      rw [List.nodup_append]
      exact ⟨hacc, List.nodup_singleton _, by
        intro a ha hb
        simp only [List.mem_singleton] at hb
        exact hnotmem (hb ▸ ha)⟩

theorem normalizeEntries_of_fixed :
    ∀ (L acc : List (List Char × YVal)),
      (∀ p ∈ L, normalize_key p.1 = p.1 ∧ normalize_value p.2 = p.2) →
      ((L.map Prod.fst).Nodup) →
      (∀ p ∈ L, ∀ q ∈ acc, p.1 ≠ q.1) →
      normalizeEntries L acc = acc ++ L := by
  intro L
  induction L with
  | nil =>
    intro acc _ _ _
    simp [normalizeEntries]
  | cons p rest ih =>
    intro acc hfix hnd hdisj
    obtain ⟨k, v⟩ := p
    have hk : normalize_key k = k := (hfix (k, v) (by simp)).1
    have hv : normalize_value v = v := (hfix (k, v) (by simp)).2
    simp only [normalizeEntries]
    rw [hk, hv]
    have hany : acc.any (fun q => decide (q.1 = k)) = false := by
      rw [List.any_eq_false]
      intro q hq hdec
      have he : q.1 = k := of_decide_eq_true hdec
      exact hdisj (k, v) (by simp) q hq he.symm
    rw [show dictInsertY acc k v = acc ++ [(k, v)] from by
      unfold dictInsertY
      rw [if_neg (by simp [hany])]]
    rw [ih (acc ++ [(k, v)])
      (fun q hq => hfix q (by simp [hq]))
      (by
        simp only [List.map_cons] at hnd
        exact hnd.of_cons)
      (by
        intro q hq r hr
        rcases List.mem_append.mp hr with h | h
        · exact hdisj q (by simp [hq]) r h
        · simp only [List.mem_singleton] at h
          subst h
          simp only [List.map_cons] at hnd
          have := (List.nodup_cons.mp hnd).1
          intro he
          exact this (by
            rw [show k = q.1 from he.symm]
            exact List.mem_map_of_mem Prod.fst hq))]
    simp

mutual

theorem normalize_value_idem : ∀ (v : YVal),
    normalize_value (normalize_value v) = normalize_value v
  | .null => by simp [normalize_value, normalizeList]
  | .str s => by
    by_cases h : pyStrip s = []
    · simp [normalize_value, h, normalizeList]
    · simp only [normalize_value]
      rw [if_neg h]
      simp only [normalize_value]
      rw [pyStrip_idem, if_neg h]
  | .list l => by
    simp only [normalize_value]
    rw [normalizeList_idem l]
  | .map m => by
    simp only [normalize_value]
    have hfix := normalizeEntries_fixed m [] (by simp)
    have hnd := entries_nodup m [] (by simp)
    rw [normalizeEntries_of_fixed (normalizeEntries m []) [] hfix hnd (by simp),
      List.nil_append]
  | .other n => by simp [normalize_value]

theorem normalizeList_idem : ∀ (l : List YVal),
    normalizeList (normalizeList l) = normalizeList l
  | [] => by simp [normalizeList]
  | v :: vs => by
    simp only [normalizeList]
    rw [normalize_value_idem v, normalizeList_idem vs]

theorem normalizeEntries_fixed : ∀ (m acc : List (List Char × YVal)),
    (∀ p ∈ acc, normalize_key p.1 = p.1 ∧ normalize_value p.2 = p.2) →
    ∀ p ∈ normalizeEntries m acc,
      normalize_key p.1 = p.1 ∧ normalize_value p.2 = p.2
  | [], acc => by
    intro hacc
    simpa [normalizeEntries] using hacc
  | (k, v) :: rest, acc => by
    intro hacc
    simp only [normalizeEntries]
    apply normalizeEntries_fixed rest
    intro p hp
    unfold dictInsertY at hp
    split at hp
    · obtain ⟨q, hq, hpe⟩ := List.mem_map.mp hp
      by_cases he : q.1 = normalize_key k
      · rw [if_pos he] at hpe
        rw [← hpe]
        exact ⟨normalize_key_idem k, normalize_value_idem v⟩
      · rw [if_neg he] at hpe
        rw [← hpe]
        exact hacc q hq
    · rcases List.mem_append.mp hp with h | h
      · exact hacc p h
      · simp only [List.mem_singleton] at h
        rw [h]
        exact ⟨normalize_key_idem k, normalize_value_idem v⟩

end

/-- C7: the Header Normalizer is idempotent: renormalizing an already
normalized header (the file-level key/value loop), value, or key gives the
same result. -/
theorem C7_normalizer_idempotent (data : List (List Char × YVal)) (v : YVal)
    (k : List Char) :
    reformat_header (reformat_header data) = reformat_header data ∧
    normalize_value (normalize_value v) = normalize_value v ∧
    normalize_key (normalize_key k) = normalize_key k := by
  refine ⟨?_, normalize_value_idem v, normalize_key_idem k⟩
  unfold reformat_header
  have hfix := normalizeEntries_fixed data [] (by simp)
  have hnd := entries_nodup data [] (by simp)
  rw [normalizeEntries_of_fixed (normalizeEntries data []) [] hfix hnd (by simp),
    List.nil_append]

/-- C9 (code bug): in scoped mode with heading `## S` found, the recoder is
claimed to leave all text outside the heading span byte-identical.  It does
not: on `X\n## S\nbody` the matched text includes the newline before the
heading (from the `(?:^|\n)` alternative) but the replacement string
`"{}\n{}\n".format(...)` does not restore it, so the preceding line `X` is
glued to the heading and a newline is appended: the result is
`X## S\nbody\n`, and the two bytes before the span, `X\n`, are changed. -/
theorem C9_scoped_frame_violation :
    transform_typed_links (some "## S".data) "X\n## S\nbody".data =
      "X## S\nbody\n".data ∧
    (transform_typed_links (some "## S".data) "X\n## S\nbody".data).take 2 ≠
      "X\n".data := by
  decide

/-- C10: the selection filter includes every file whose name ends in `.jpg`,
`.jpeg` or `.png`, for every configured type and tags filter: the image
check is unconditional and independent of the Markdown predicates. -/
theorem C10_images_always_selected (ty tg : Option (List Char))
    (files : List FileEntry) (f : FileEntry) (hf : f ∈ files)
    (himg : pyEndsWith f.name ".jpg".data = true ∨
      pyEndsWith f.name ".jpeg".data = true ∨
      pyEndsWith f.name ".png".data = true) :
    f.name ∈ filter_files ty tg files := by
  induction files with
  | nil => cases hf
  | cons g rest ih =>
    rcases List.mem_cons.mp hf with he | hmem
    · subst he
      simp only [filter_files]
      refine List.mem_append.mpr (Or.inl (List.mem_append.mpr (Or.inr ?_)))
      have hcond : (pyEndsWith f.name ".jpg".data || pyEndsWith f.name ".jpeg".data ||
          pyEndsWith f.name ".png".data) = true := by
        rcases himg with h | h | h <;> simp [h]
      rw [if_pos hcond]
      simp
    · simp only [filter_files]
      exact List.mem_append.mpr (Or.inr (ih hmem))

/-- Witness for C10: a `.png` file is selected although a type filter and a
tags filter are configured that the only `.md` file does not satisfy. -/
theorem C10_images_always_selected_witness :
    "pic.png".data ∈ filter_files (some "note".data) (some "t".data)
      [⟨"a.md".data, "x".data⟩, ⟨"pic.png".data, []⟩] :=
  C10_images_always_selected (some "note".data) (some "t".data)
    [⟨"a.md".data, "x".data⟩, ⟨"pic.png".data, []⟩] ⟨"pic.png".data, []⟩
    (List.Mem.tail _ (List.Mem.head _)) (Or.inr (Or.inr (by decide)))

end O2C
